import Mathlib

/-!
Verification development for the goodreads2md script
(`scripts/goodreads.py`).  The two cores of the program are embedded
shallowly:

* the metadata reconciler (`read_frontmatter`, `dict_diff`, and the
  frontmatter-merging part of `update_existing_file`), and
* the title parser (`remove_punctuation`, `get_subtitle`,
  `get_series_info`, `get_clean_book_info`), including a small
  backtracking regular-expression engine mirroring the exact three
  patterns the source feeds to `re.fullmatch`, with Python's
  greedy/lazy backtracking priority order.

Strings are modelled as Lean `String`s (lists of characters); Python
`dict`s as insertion-ordered association lists with Python's
overwrite-in-place assignment semantics; the YAML loader
(`yaml.safe_load`, a third-party library) is a parameter of
`read_frontmatter`.
-/

namespace Goodreads

/-- Python's default whitespace set for `str.strip` (ASCII part). -/
def isSpaceChar (c : Char) : Bool :=
  c == ' ' || c == '\t' || c == '\n' || c == '\r' || c == '\x0b' || c == '\x0c'

/-- Embedding of Python `str.strip()` on a character list. -/
def trimChars (l : List Char) : List Char :=
  ((l.dropWhile isSpaceChar).reverse.dropWhile isSpaceChar).reverse

/-- Embedding of Python `str.strip()` on a `String`. -/
def pyStrip (s : String) : String := ⟨trimChars s.data⟩

/-- Worker for `removeAll`: in state `n+1` we are inside a recognised
occurrence and still have to discard `n+1` characters; in state `0` we
test whether the pattern starts at the current position. -/
def removeAllAux (pat : List Char) : Nat → List Char → List Char
  | _, [] => []
  | Nat.succ n, _ :: xs => removeAllAux pat n xs
  | 0, x :: xs =>
    if pat ≠ [] ∧ pat.isPrefixOf (x :: xs) then
      removeAllAux pat (pat.length - 1) xs
    else
      x :: removeAllAux pat 0 xs

/-- Embedding of Python `s.replace(pat, "")` : delete every left-to-right
non-overlapping occurrence of `pat` in `s`.  (Python's
`s.replace("", "")` is the identity, as is this function for `pat = []`.) -/
def removeAll (pat s : List Char) : List Char :=
  removeAllAux pat 0 s

/-- Embedding of Python `s.split(c)` for a one-character separator. -/
def splitOnChar (c : Char) : List Char → List (List Char)
  | [] => [[]]
  | x :: xs =>
    let r := splitOnChar c xs
    if x == c then [] :: r
    else
      match r with
      | [] => [[x]]
      | h :: t => (x :: h) :: t

/-- The 32 characters of Python's `string.punctuation`. -/
def punctuationChars : List Char :=
  "!\"#$%\x26\x27()*+,-./:;<=>?@[\\]^_\x60\x7b|\x7d~".data

/-- The character class deleted by `remove_punctuation`:
`string.punctuation` with the hyphen removed (the source computes
`string.punctuation.replace("-", "")`), plus the three characters of the
mojibake curly-apostrophe sequence that appears literally in the source's
regex character class. -/
def punctClass (c : Char) : Bool :=
  (decide (c ∈ punctuationChars) && !(c == '-'))
    || c == 'â' || c == '€' || c == '™'

/-- Embedding of `remove_punctuation` (source lines 76-80): first
`input_string.replace("&", "and")`, then delete every character of the
class `[<punctuation without hyphen>â€™]`. -/
def removePunctChars (s : List Char) : List Char :=
  (s.flatMap (fun c => if c == '\x26' then ['a', 'n', 'd'] else [c])).filter
    (fun c => !(punctClass c))

/-- `remove_punctuation` at `String` level. -/
def remove_punctuation (s : String) : String := ⟨removePunctChars s.data⟩

/-! ## The dictionary model

Python `dict`s are embedded as insertion-ordered association lists.
`Dict.insert` is Python's `d[k] = v`: overwrite in place when the key is
present, append otherwise.  Scalar YAML/metadata values are modelled by
`Val`. -/

/-- Scalar metadata values as they occur in the frontmatter mappings. -/
inductive Val where
  | str (s : String)
  | bool (b : Bool)
  | int (n : Int)
deriving DecidableEq, Repr

/-- A Python dict: insertion-ordered key/value pairs. -/
abbrev Dict := List (String × Val)

/-- Python `d[k]` as an `Option` (first entry with the key; a real Python
dict has unique keys, so "first" is "the"). -/
def Dict.lookup (d : Dict) (k : String) : Option Val :=
  (d.find? (fun p => p.1 == k)).map Prod.snd

/-- Python `k in d`. -/
def Dict.hasKey (d : Dict) (k : String) : Bool :=
  d.any (fun p => p.1 == k)

/-- Python `d[k] = v`: overwrite in place if present, else append. -/
def Dict.insert (d : Dict) (k : String) (v : Val) : Dict :=
  if d.hasKey k then d.map (fun p => if p.1 == k then (k, v) else p)
  else d ++ [(k, v)]

/-- Build a dict from a pair list as a Python dict comprehension does:
later pairs with an already-seen key overwrite the earlier value. -/
def dictOfList (ps : List (String × Val)) : Dict :=
  ps.foldl (fun d p => d.insert p.1 p.2) []

/-- `k.replace("-", "_")` : the key normalisation in `dict_diff`. -/
def normChar (c : Char) : Char := if c == '-' then '_' else c

/-- Key normalisation of `dict_diff` (source lines 49-50). -/
def normKey (s : String) : String := ⟨s.data.map normChar⟩

/-- The `vals` coercion table (source lines 24-27, 52-57): string-valued
booleans `"true"`/`"false"` become booleans; everything else is kept. -/
def normVal (v : Val) : Val :=
  match v with
  | .str s => if s = "true" then .bool true else if s = "false" then .bool false else v
  | _ => v

/-- Normalise a mapping the way `dict_diff` does: hyphens in keys become
underscores (with Python-dict collision semantics), then values are
coerced through `vals`. -/
def normMap (d : Dict) : Dict :=
  (dictOfList (d.map (fun p => (normKey p.1, p.2)))).map (fun p => (p.1, normVal p.2))

/-- Result of `dict_diff` (source lines 47-73). -/
structure DictDiff where
  only_in_a : Dict
  only_in_b : Dict
  different_values : List (String × Val × Val)
deriving DecidableEq, Repr

/-- Embedding of `dict_diff`: normalise both mappings, then compute the
keys only in `a`, the keys only in `b`, and the keys in both whose
normalised values differ (with the pair of values). -/
def dict_diff (a b : Dict) : DictDiff :=
  let a' := normMap a
  let b' := normMap b
  { only_in_a := a'.filter (fun p => !(b'.hasKey p.1))
  , only_in_b := b'.filter (fun p => !(a'.hasKey p.1))
  , different_values :=
      a'.filterMap (fun p =>
        match b'.lookup p.1 with
        | some w => if p.2 ≠ w then some (p.1, p.2, w) else none
        | none => none) }

/-- The decision taken by `update_existing_file` once the existing
frontmatter has been read: `noOp` when `different_values` is empty
(the function returns `False` without writing), otherwise `patch` with
the frontmatter mapping that gets dumped into the rewritten file —
the existing mapping with the `only_in_b` (fresh-only) fields assigned
onto it (source lines 186-195). -/
inductive Action where
  | noOp
  | patch (merged : Dict)
deriving DecidableEq, Repr

/-- The frontmatter-merging core of `update_existing_file`
(source lines 186-195). -/
def reconcile (current metadata : Dict) : Action :=
  if (dict_diff current metadata).different_values = [] then .noOp
  else .patch ((dict_diff current metadata).only_in_b.foldl
    (fun c p => c.insert p.1 p.2) current)

/-- Embedding of `read_frontmatter` (source lines 30-44).  The YAML
loader is a parameter (`yaml.safe_load` is a third-party library); the
fence scanning is the source's: no frontmatter unless the first line
strips to `---`, then the lines up to (excluding) the next `---` line
are joined and handed to the loader. -/
def read_frontmatter (load : String → Option Dict) : List String → Option Dict
  | [] => none
  | l0 :: rest =>
    if pyStrip l0 = "---" then
      load (String.join (rest.takeWhile (fun l => pyStrip l ≠ "---")))
    else none

/-- Observable outcome of `update_existing_file` (source lines 171-210):
`skipped` — no parseable frontmatter, warning logged, `False` returned
before any write; `noOp` — no differing values, `False` returned before
any write; `wrote m` — the file is rewritten with `m` dumped as its new
frontmatter and `True` is returned.  Only the `wrote` path reaches
`open(filepath, "w")`. -/
inductive UpdateOutcome where
  | skipped
  | noOp
  | wrote (frontmatter : Dict)
deriving DecidableEq, Repr

/-- Embedding of `update_existing_file`'s control flow on the file's
lines (the jinja template rendering and the description body are not
modelled; `wrote m` carries the mapping that `yaml.dump` serialises). -/
def update_existing_file (load : String → Option Dict) (lines : List String)
    (metadata : Dict) : UpdateOutcome :=
  match read_frontmatter load lines with
  | none => .skipped
  | some current =>
    match reconcile current metadata with
    | .noOp => .noOp
    | .patch m => .wrote m

/-! ## The regular-expression engine

The source matches titles against three concrete patterns with
`re.fullmatch`.  The patterns use only: the dot, `\d`, the class
`[-\.]`, literal characters, `X+` (greedy), `X+?` (lazy), `X?` on a
literal, sequencing, and numbered groups — always repeating a
single-character class.  `RE` mirrors exactly that grammar, and `run`
enumerates every way a prefix of the input can be matched, in Python's
backtracking priority order (greedy repetition: longest first; lazy:
shortest first; `X?`: present first).  `fullmatchCaps` then picks the
first enumerated match that consumes the whole input — which is the
match Python's backtracking returns — together with its group
captures. -/

/-- The single-character classes occurring in the source's patterns. -/
inductive CC where
  | dot        -- `.` : any character except a newline
  | digit      -- `\d` (ASCII model of Python's decimal-digit class)
  | dashOrDot  -- `[-\.]`
deriving DecidableEq, Repr

/-- Membership in a character class. -/
def CC.test : CC → Char → Bool
  | .dot, c => !(c == '\n')
  | .digit, c => c.isDigit
  | .dashOrDot, c => c == '-' || c == '.'

/-- Abstract syntax of the needed regular-expression fragment. -/
inductive RE where
  | chr (c : Char)            -- a literal character
  | cls (k : CC)              -- a single-character class
  | seq (a b : RE)            -- concatenation
  | optChr (c : Char)         -- `c?` (greedy option on a literal)
  | plusG (k : CC)            -- `k+` (greedy)
  | plusL (k : CC)            -- `k+?` (lazy)
  | group (i : Nat) (a : RE)  -- capturing group number `i`
deriving Repr

/-- Group captures of one match: pairs of group number and captured text. -/
abbrev Caps := List (Nat × List Char)

/-- Remainders after consuming one-or-more `k`-characters, in greedy
order: the longest consumption comes first. -/
def plusGreedyRests (k : CC) : List Char → List (List Char)
  | [] => []
  | c :: s => if k.test c then plusGreedyRests k s ++ [s] else []

/-- Remainders after consuming one-or-more `k`-characters, in lazy
order: the shortest consumption comes first. -/
def plusLazyRests (k : CC) : List Char → List (List Char)
  | [] => []
  | c :: s => if k.test c then s :: plusLazyRests k s else []

/-- All prefix matches of `re` against `s`, each as (remaining input,
captures), enumerated in Python's backtracking priority order. -/
def run : RE → List Char → List (List Char × Caps)
  | .chr c, s =>
    match s with
    | [] => []
    | x :: xs => if x == c then [(xs, [])] else []
  | .cls k, s =>
    match s with
    | [] => []
    | x :: xs => if k.test x then [(xs, [])] else []
  | .seq a b, s =>
    (run a s).flatMap fun p => (run b p.1).map fun q => (q.1, p.2 ++ q.2)
  | .optChr c, s =>
    (match s with
     | [] => []
     | x :: xs => if x == c then [(xs, [])] else []) ++ [(s, [])]
  | .plusG k, s => (plusGreedyRests k s).map fun r => (r, [])
  | .plusL k, s => (plusLazyRests k s).map fun r => (r, [])
  | .group i a, s =>
    (run a s).map fun p => (p.1, p.2 ++ [(i, s.take (s.length - p.1.length))])

/-- Embedding of `re.fullmatch(re, s)`: the first match (in backtracking
priority order) that consumes all of `s`, as its capture list. -/
def fullmatchCaps (re : RE) (s : List Char) : Option Caps :=
  (((run re s).filter (fun p => p.1.isEmpty)).head?).map Prod.snd

/-- `match.group(i)`: the text captured by group `i`. -/
def capOf (caps : Caps) (i : Nat) : List Char :=
  ((caps.find? (fun p => p.1 == i)).map Prod.snd).getD []

/-- `,? #<g3>` : the continuation after the lazily-matched series name. -/
def restPat (g3 : RE) : RE :=
  .seq (.optChr ',') (.seq (.chr ' ') (.seq (.chr '#') (.group 3 g3)))

/-- `(.+?),? #<g3>` : the group-2 / group-3 core of the series
patterns (the contents of group 1). -/
def innerPat (g3 : RE) : RE :=
  .seq (.group 2 (.plusL .dot)) (restPat g3)

/-- ` \((<inner>)\)` : everything after the leading `.+`. -/
def tailPat (g3 : RE) : RE :=
  .seq (.chr ' ') (.seq (.chr '(') (.seq (.group 1 (innerPat g3)) (.chr ')')))

/-- The common shell of the three series patterns:
`.+ \(((.+?),? #(<g3>))\)` with a parameterised group-3 body. -/
def seriesPat (g3 : RE) : RE := .seq (.plusG .dot) (tailPat g3)

/-- Pattern 1, `.+ \(((.+?),? #(\d+))\)` : single entry. -/
def pat1 : RE := seriesPat (.plusG .digit)

/-- Group-3 body of pattern 2: `\d+[-\.]\d+`. -/
def num2 : RE := .seq (.plusG .digit) (.seq (.cls .dashOrDot) (.plusG .digit))

/-- Pattern 2, `.+ \(((.+?),? #(\d+[-\.]\d+))\)` : omnibus or novella. -/
def pat2 : RE := seriesPat num2

/-- Group-3 body of pattern 3: `\d+\.\d+-\d+`. -/
def num3 : RE :=
  .seq (.plusG .digit) (.seq (.chr '.')
    (.seq (.plusG .digit) (.seq (.chr '-') (.plusG .digit))))

/-- Pattern 3, `.+ \(((.+?),? #(\d+\.\d+-\d+))\)` : omnibus with novella. -/
def pat3 : RE := seriesPat num3

/-- Try the patterns in the source's priority order, stopping at the
first full match (source lines 90-102). -/
def firstMatch : List RE → List Char → Option Caps
  | [], _ => none
  | p :: ps, s =>
    match fullmatchCaps p s with
    | some caps => some caps
    | none => firstMatch ps s

/-! ## The title parser -/

/-- Embedding of `get_series_info` (source lines 88-105): on the first
full match, `series` is `"(" + group(1).strip() + ")"`, `series_name`
is `remove_punctuation(group(2)).strip()`, `series_num` is
`group(3).strip()`; on no match, three empty strings. -/
def get_series_info (title : List Char) : List Char × List Char × List Char :=
  match firstMatch [pat1, pat2, pat3] title with
  | some caps =>
    ('(' :: (trimChars (capOf caps 1) ++ [')']),
     trimChars (removePunctChars (capOf caps 2)),
     trimChars (capOf caps 3))
  | none => ([], [], [])

/-- Embedding of `get_subtitle` (source lines 83-85):
`title.split(":")[1].strip()`.  The indexing raises `IndexError` in
Python when the title has no colon; that possibility is `none` here
(the caller guards it, see `parse_total`). -/
def get_subtitle (title : List Char) : Option (List Char) :=
  ((splitOnChar ':' title)[1]?).map trimChars

/-- The record returned by the title parser. -/
structure ParsedTitle where
  title : String
  subtitle : String
  series_name : String
  series_number : String
deriving DecidableEq, Repr

/-- Embedding of `get_clean_book_info` (source lines 108-123): series
extraction behind the `"(" and "#"` guard with removal of the matched
parenthetical, then subtitle extraction behind the `":"` guard with
removal of the subtitle substring, then punctuation stripping and a
final strip.  `none` models the (unreachable) uncaught `IndexError`
path of `get_subtitle`. -/
def get_clean_book_info (book_title : String) : Option ParsedTitle :=
  let s0 := book_title.data
  let r :=
    if '(' ∈ s0 ∧ '#' ∈ s0 then
      let i := get_series_info s0
      (removeAll i.1 s0, i.2.1, i.2.2)
    else (s0, [], [])
  if ':' ∈ r.1 then
    match get_subtitle r.1 with
    | none => none
    | some sub =>
      some ⟨⟨trimChars (removePunctChars (removeAll sub r.1))⟩, ⟨sub⟩,
            ⟨r.2.1⟩, ⟨r.2.2⟩⟩
  else
    some ⟨⟨trimChars (removePunctChars r.1)⟩, "", ⟨r.2.1⟩, ⟨r.2.2⟩⟩

/-! ## Dictionary lemmas -/

theorem find?_overwrite (q k : String) (v : Val) (h : q ≠ k) :
    ∀ d : List (String × Val),
      List.find? (fun p => p.1 == k) (d.map fun p => if p.1 == q then (q, v) else p)
        = List.find? (fun p => p.1 == k) d
  | [] => rfl
  | p :: d' => by
    rw [List.map_cons]
    by_cases hq : p.1 = q
    · have e1 : (if p.1 == q then (q, v) else p) = (q, v) := by simp [hq]
      rw [e1, List.find?_cons_of_neg _ (by simpa using h),
          List.find?_cons_of_neg _ (by simp [hq, h]),
          find?_overwrite q k v h d']
    · have e1 : (if p.1 == q then (q, v) else p) = p := by simp [hq]
      rw [e1]
      by_cases hk : p.1 = k
      · rw [List.find?_cons_of_pos _ (by simpa using hk),
            List.find?_cons_of_pos _ (by simpa using hk)]
      · rw [List.find?_cons_of_neg _ (by simpa using hk),
            List.find?_cons_of_neg _ (by simpa using hk),
            find?_overwrite q k v h d']

theorem find?_append_single_ne (q k : String) (v : Val) (h : q ≠ k) :
    ∀ d : List (String × Val),
      List.find? (fun p => p.1 == k) (d ++ [(q, v)])
        = List.find? (fun p => p.1 == k) d
  | [] => by
    rw [List.nil_append, List.find?_cons_of_neg _ (by simpa using h)]
  | p :: d' => by
    rw [List.cons_append]
    by_cases hk : p.1 = k
    · rw [List.find?_cons_of_pos _ (by simpa using hk),
          List.find?_cons_of_pos _ (by simpa using hk)]
    · rw [List.find?_cons_of_neg _ (by simpa using hk),
          List.find?_cons_of_neg _ (by simpa using hk),
          find?_append_single_ne q k v h d']

theorem Dict.lookup_insert_ne (d : Dict) (q k : String) (v : Val) (h : q ≠ k) :
    (d.insert q v).lookup k = d.lookup k := by
  unfold Dict.insert Dict.lookup
  split
  · rw [find?_overwrite q k v h d]
  · rw [find?_append_single_ne q k v h d]

theorem Dict.lookup_foldl_insert (ps : List (String × Val)) (d : Dict)
    (k : String) (h : ∀ p ∈ ps, p.1 ≠ k) :
    (ps.foldl (fun c p => c.insert p.1 p.2) d).lookup k = d.lookup k := by
  induction ps generalizing d with
  | nil => rfl
  | cons p ps' ih =>
    simp only [List.foldl_cons]
    rw [ih _ (fun q hq => h q (List.mem_cons_of_mem _ hq)),
        Dict.lookup_insert_ne _ _ _ _ (h p (List.mem_cons_self _ _))]

theorem Dict.fst_mem_insert (d : Dict) (q k : String) (v : Val)
    (h : k ∈ (d.insert q v).map Prod.fst) :
    k ∈ d.map Prod.fst ∨ k = q := by
  unfold Dict.insert at h
  split at h
  · rcases List.mem_map.mp h with ⟨p, hp, hpk⟩
    rcases List.mem_map.mp hp with ⟨p', hp', hpp⟩
    by_cases hq : p'.1 = q
    · right
      rw [← hpk, ← hpp]
      simp [beq_iff_eq.mpr hq]
    · left
      rw [← hpk, ← hpp]
      simp only [beq_eq_false_iff_ne.mpr hq, if_false]
      exact List.mem_map.mpr ⟨p', hp', rfl⟩
  · rw [List.map_append] at h
    rcases List.mem_append.mp h with h1 | h1
    · exact Or.inl h1
    · right; simpa using h1

theorem Dict.fst_mem_dictOfList (ps : List (String × Val)) (k : String)
    (h : k ∈ (dictOfList ps).map Prod.fst) : k ∈ ps.map Prod.fst := by
  suffices H : ∀ (acc : Dict), k ∈ (ps.foldl (fun d p => d.insert p.1 p.2) acc).map Prod.fst →
      k ∈ acc.map Prod.fst ∨ k ∈ ps.map Prod.fst by
    rcases H [] h with h1 | h1
    · simp at h1
    · exact h1
  clear h
  induction ps with
  | nil => intro acc hacc; exact Or.inl hacc
  | cons p ps' ih =>
    intro acc hacc
    simp only [List.foldl_cons] at hacc
    rcases ih (acc.insert p.1 p.2) hacc with h1 | h1
    · rcases Dict.fst_mem_insert _ _ _ _ h1 with h2 | h2
      · exact Or.inl h2
      · exact Or.inr (by simp [h2])
    · exact Or.inr (List.mem_cons_of_mem _ h1)

theorem normKey_idem (s : String) : normKey (normKey s) = normKey s := by
  unfold normKey
  apply String.ext
  simp only [List.map_map]
  apply List.map_congr_left
  intro c _
  simp only [Function.comp_apply]
  unfold normChar
  by_cases h : c = '-'
  · simp [h]
  · simp [beq_eq_false_iff_ne.mpr h]

/-- Every key of `normMap d` is the normalisation of a key of `d`. -/
theorem fst_mem_normMap (d : Dict) (k : String)
    (h : k ∈ (normMap d).map Prod.fst) :
    ∃ j ∈ d.map Prod.fst, k = normKey j := by
  unfold normMap at h
  rw [List.map_map] at h
  have h2 : k ∈ (dictOfList (d.map fun p => (normKey p.1, p.2))).map Prod.fst := by
    simpa using h
  have h3 := Dict.fst_mem_dictOfList _ _ h2
  rw [List.map_map] at h3
  rcases List.mem_map.mp h3 with ⟨p, hp, hpk⟩
  exact ⟨p.1, List.mem_map.mpr ⟨p, hp, rfl⟩, hpk.symm⟩

/-! ## Claims about the reconciler -/

/-- The existing frontmatter of C1's scenario: `rating: 4`,
`genre: non-fiction`. -/
def c1_existing : Dict := [("rating", .int 4), ("genre", .str "non-fiction")]

/-- The fresh metadata of C1's scenario: `rating: 5`,
`genre: non-fiction`. -/
def c1_fresh : Dict := [("rating", .int 5), ("genre", .str "non-fiction")]

/-- C1 (code bug): the spec says a `Patch` overlays every differing
field, so the scenario with existing `rating: 4` and fresh `rating: 5`
should produce a merged mapping with `rating: 5`.  The code detects the
differing `rating` (which is what triggers the `Patch`) but then only
copies `only_in_b` (fresh-only) fields onto the existing mapping and
never applies `different_values` — the written frontmatter still has
`rating: 4` and is exactly the existing mapping. -/
theorem c1_patch_drops_changed_values :
    reconcile c1_existing c1_fresh =
      Action.patch [("rating", .int 4), ("genre", .str "non-fiction")] ∧
    Dict.lookup [("rating", Val.int 4), ("genre", Val.str "non-fiction")] "rating" =
      some (Val.int 4) := by
  constructor
  · decide
  · decide

/-- The existing frontmatter of C2's scenario: `rating: 4`. -/
def c2_existing : Dict := [("rating", .int 4)]

/-- The fresh metadata of C2's scenario: `rating: 5` plus a fresh-only
field `subtitle`. -/
def c2_fresh : Dict := [("rating", .int 5), ("subtitle", .str "x")]

/-- C2 (code bug): reconciliation is not idempotent.  The first call
writes the merged mapping `{rating: 4, subtitle: x}` (the differing
`rating` is never applied, the fresh-only `subtitle` is added); a second
call on that written result against the identical fresh metadata still
finds `rating` differing and produces `patch` (a write) again, not
`noOp`. -/
theorem c2_reconcile_not_idempotent :
    reconcile c2_existing c2_fresh =
      Action.patch [("rating", .int 4), ("subtitle", .str "x")] ∧
    reconcile [("rating", .int 4), ("subtitle", .str "x")] c2_fresh =
      Action.patch [("rating", .int 4), ("subtitle", .str "x")] ∧
    reconcile [("rating", Val.int 4), ("subtitle", Val.str "x")] c2_fresh ≠
      Action.noOp := by
  refine ⟨by decide, by decide, by decide⟩

/-- C4: a field present in the existing frontmatter and not reported by
the fresh fetch (under either key spelling) survives a `Patch` with its
value unchanged — the merge starts from the existing mapping and only
ever assigns normalised fresh-only keys, which can never collide with a
key the fresh fetch does not report. -/
theorem c4_patch_preserves_existing_only (current metadata : Dict)
    (k : String) (v : Val) (merged : Dict)
    (hk : Dict.lookup current k = some v)
    (hfresh : ∀ j ∈ metadata.map Prod.fst, normKey j ≠ normKey k)
    (hpatch : reconcile current metadata = Action.patch merged) :
    Dict.lookup merged k = some v := by
  unfold reconcile at hpatch
  split at hpatch
  · exact absurd hpatch (by simp)
  · have hm := (Action.patch.injEq _ _).mp hpatch
    subst hm
    rw [Dict.lookup_foldl_insert]
    · exact hk
    · intro p hp hpk
      have hkey : p.1 ∈ ((dict_diff current metadata).only_in_b).map Prod.fst :=
        List.mem_map.mpr ⟨p, hp, rfl⟩
      unfold dict_diff at hkey
      simp only at hkey
      rcases List.mem_map.mp hkey with ⟨q, hq, hqk⟩
      have hq2 : q ∈ normMap metadata := (List.mem_filter.mp hq).1
      have hq3 : q.1 ∈ (normMap metadata).map Prod.fst := List.mem_map.mpr ⟨q, hq2, rfl⟩
      rcases fst_mem_normMap _ _ hq3 with ⟨j, hj, hjk⟩
      have hk2 : k = normKey j := by rw [← hpk, ← hqk, hjk]
      apply hfresh j hj
      rw [hk2, normKey_idem]

/-- Witness for C4 at a concrete input: existing
`{legacy-field: x, rating: 4}`, fresh `{rating: 5}`; the action is a
`Patch` (rating differs) and `legacy-field` survives with value `x`. -/
theorem c4_witness :
    Dict.lookup [("legacy-field", Val.str "x"), ("rating", Val.int 4)] "legacy-field" =
      some (Val.str "x") :=
  c4_patch_preserves_existing_only
    [("legacy-field", .str "x"), ("rating", .int 4)] [("rating", .int 5)]
    "legacy-field" (.str "x")
    [("legacy-field", .str "x"), ("rating", .int 4)]
    (by decide) (by decide) (by decide)

/-- C5: when the normalised comparison finds zero differing values the
update returns `False` before reaching the write — the outcome is
`noOp` regardless of fresh-only or existing-only fields. -/
theorem c5_noop_of_no_differing_values (load : String → Option Dict)
    (lines : List String) (metadata current : Dict)
    (hread : read_frontmatter load lines = some current)
    (hdiff : (dict_diff current metadata).different_values = []) :
    update_existing_file load lines metadata = UpdateOutcome.noOp := by
  unfold update_existing_file
  rw [hread]
  unfold reconcile
  simp [hdiff]

/-- Witness for C5: a file whose frontmatter has an extra
`legacy` field and a fresh fetch with an extra `subtitle` field but no
differing values: the outcome is `noOp`. -/
theorem c5_witness :
    update_existing_file
      (fun s => if s = "" then some [("rating", .int 4), ("legacy", .str "x")] else none)
      ["---"] [("rating", .int 4), ("subtitle", .str "y")] = UpdateOutcome.noOp :=
  c5_noop_of_no_differing_values _ _ _
    [("rating", .int 4), ("legacy", .str "x")] (by decide) (by decide)

/-- C9: when the first line of the existing file does not strip to the
fence marker `---` (or the file is empty), `read_frontmatter` returns
no mapping and `update_existing_file` returns `False` after logging a
warning, before any write — the outcome is `skipped` and the file is
untouched. -/
theorem c9_skip_without_fence (load : String → Option Dict)
    (lines : List String) (metadata : Dict)
    (hfence : ∀ l0 rest, lines = l0 :: rest → pyStrip l0 ≠ "---") :
    read_frontmatter load lines = none ∧
    update_existing_file load lines metadata = UpdateOutcome.skipped := by
  have hread : read_frontmatter load lines = none := by
    cases lines with
    | nil => rfl
    | cons l0 rest =>
      simp only [read_frontmatter]
      rw [if_neg (hfence l0 rest rfl)]
  refine ⟨hread, ?_⟩
  unfold update_existing_file
  rw [hread]

/-- Witness for C9: a Markdown file starting with a heading instead of
a frontmatter fence is skipped. -/
theorem c9_witness :
    read_frontmatter (fun _ => some []) ["# Title", "body"] = none ∧
    update_existing_file (fun _ => some []) ["# Title", "body"] [("rating", .int 4)] =
      UpdateOutcome.skipped :=
  c9_skip_without_fence _ _ _ (by
    intro l0 rest h
    injection h with h1 _
    rw [← h1]
    decide)

/-- C10: an opening fence line immediately followed by a closing fence
line hands the empty document to the YAML loader; since
`yaml.safe_load` maps the empty document to `None` (the hypothesis
`hload`), the update behaves exactly as in the missing-frontmatter
case: no mapping, outcome `skipped`, no write. -/
theorem c10_empty_frontmatter_skipped (load : String → Option Dict)
    (hload : load "" = none) (l0 l1 : String) (rest : List String)
    (metadata : Dict) (h0 : pyStrip l0 = "---") (h1 : pyStrip l1 = "---") :
    read_frontmatter load (l0 :: l1 :: rest) = none ∧
    update_existing_file load (l0 :: l1 :: rest) metadata = UpdateOutcome.skipped := by
  have hread : read_frontmatter load (l0 :: l1 :: rest) = none := by
    simp only [read_frontmatter]
    rw [if_pos h0, List.takeWhile_cons]
    simp only [h1, ne_eq, not_true_eq_false, decide_False, Bool.false_eq_true, if_false]
    exact hload
  refine ⟨hread, ?_⟩
  unfold update_existing_file
  rw [hread]

/-- Witness for C10: the file `["---", "---", "body"]` with a loader
sending the empty document to `none` is skipped. -/
theorem c10_witness :
    read_frontmatter (fun s => if s = "" then none else some []) ["---", "---", "body"] = none ∧
    update_existing_file (fun s => if s = "" then none else some [])
      ["---", "---", "body"] [("rating", .int 4)] = UpdateOutcome.skipped :=
  c10_empty_frontmatter_skipped _ (by simp) "---" "---" ["body"] _ (by decide) (by decide)

/-! ## Splitting lemmas for the subtitle claims -/

theorem splitOnChar_ne_nil (c : Char) : ∀ l, splitOnChar c l ≠ []
  | [] => by simp [splitOnChar]
  | x :: xs => by
    unfold splitOnChar
    split
    · simp
    · cases hs : splitOnChar c xs <;> simp [hs]

theorem head?_splitOnChar (c : Char) :
    ∀ l, (splitOnChar c l).head? = some (l.takeWhile (fun x => !(x == c)))
  | [] => rfl
  | x :: xs => by
    unfold splitOnChar
    rw [List.takeWhile_cons]
    by_cases h : x = c
    · simp [h]
    · have hb : (x == c) = false := beq_eq_false_iff_ne.mpr h
      have ih := head?_splitOnChar c xs
      simp only [hb, Bool.not_false, if_true, if_false, Bool.false_eq_true]
      cases hs : splitOnChar c xs with
      | nil => exact absurd hs (splitOnChar_ne_nil c xs)
      | cons h0 t0 =>
        rw [hs] at ih
        simp only [List.head?_cons, Option.some.injEq] at ih
        simp [ih]

theorem two_le_splitOnChar_length (c : Char) :
    ∀ l, c ∈ l → 2 ≤ (splitOnChar c l).length
  | x :: xs, hm => by
    unfold splitOnChar
    by_cases h : x = c
    · simp only [beq_iff_eq.mpr h, if_true, List.length_cons]
      have hpos := List.length_pos.mpr (splitOnChar_ne_nil c xs)
      omega
    · have hxs : c ∈ xs := by
        rcases List.mem_cons.mp hm with h1 | h1
        · exact absurd h1.symm h
        · exact h1
      have ih := two_le_splitOnChar_length c xs hxs
      simp only [beq_eq_false_iff_ne.mpr h, if_false, Bool.false_eq_true]
      cases hs : splitOnChar c xs with
      | nil => exact absurd hs (splitOnChar_ne_nil c xs)
      | cons h0 t0 =>
        rw [hs] at ih
        simp only [List.length_cons] at ih ⊢
        omega

theorem splitOnChar_append (c : Char) :
    ∀ (a s : List Char), c ∉ a → ∀ h t, splitOnChar c s = h :: t →
      splitOnChar c (a ++ s) = (a ++ h) :: t
  | [], s, _, h, t, hs => by simpa using hs
  | x :: a', s, hc, h, t, hs => by
    have hx : x ≠ c := fun he => hc (by simp [he])
    have ha' : c ∉ a' := fun he => hc (List.mem_cons_of_mem _ he)
    rw [List.cons_append]
    unfold splitOnChar
    rw [splitOnChar_append c a' s ha' h t hs]
    simp [beq_eq_false_iff_ne.mpr hx]

theorem splitOnChar_cons_self (c : Char) (b : List Char) :
    splitOnChar c (c :: b) = [] :: splitOnChar c b := by
  conv_lhs => rw [splitOnChar]
  simp

/-- `get_subtitle` succeeds on every title containing a colon. -/
theorem get_subtitle_isSome (l : List Char) (h : ':' ∈ l) :
    ∃ sub, get_subtitle l = some sub := by
  unfold get_subtitle
  have h2 := two_le_splitOnChar_length ':' l h
  cases hs : splitOnChar ':' l with
  | nil => exact absurd hs (splitOnChar_ne_nil ':' l)
  | cons h0 t0 =>
    cases t0 with
    | nil => rw [hs] at h2; simp at h2
    | cons h1 t1 => exact ⟨trimChars h1, by simp⟩

/-- On a title of the shape `a ++ ":" ++ b` with no colon in `a`,
`get_subtitle` returns the trimmed text between the first and second
colons (all of `b` when `b` has no colon). -/
theorem get_subtitle_eq (a b : List Char) (ha : ':' ∉ a) :
    get_subtitle (a ++ ':' :: b) =
      some (trimChars (b.takeWhile (fun x => !(x == ':')))) := by
  unfold get_subtitle
  rw [splitOnChar_append ':' a (':' :: b) ha _ _ (splitOnChar_cons_self ':' b)]
  have hh := head?_splitOnChar ':' b
  cases hs : splitOnChar ':' b with
  | nil => exact absurd hs (splitOnChar_ne_nil ':' b)
  | cons h0 t0 =>
    rw [hs] at hh
    simp only [List.head?_cons, Option.some.injEq] at hh
    simp [hh]

/-! ## C6: totality of the title parser -/

/-- C6: the parser is total — `get_clean_book_info` returns a
`ParsedTitle` on every input (the only partial operation,
`get_subtitle`'s `[1]` indexing, is guarded by the `":" in title`
check), and on input with no series-marker characters and no colon the
series and subtitle fields are all empty, the title being the
punctuation-stripped, trimmed input. -/
theorem parse_total (t : String) :
    (get_clean_book_info t).isSome = true ∧
    (¬('(' ∈ t.data ∧ '#' ∈ t.data) → ':' ∉ t.data →
      get_clean_book_info t =
        some ⟨⟨trimChars (removePunctChars t.data)⟩, "", "", ""⟩) := by
  constructor
  · unfold get_clean_book_info
    by_cases hg : '(' ∈ t.data ∧ '#' ∈ t.data
    · simp only [hg, if_true]
      by_cases hc : ':' ∈ (removeAll (get_series_info t.data).1 t.data)
      · rcases get_subtitle_isSome _ hc with ⟨sub, hsub⟩
        simp [hc, hsub]
      · simp [hc]
    · simp only [hg, if_false]
      by_cases hc : ':' ∈ t.data
      · rcases get_subtitle_isSome _ hc with ⟨sub, hsub⟩
        simp [hc, hsub]
      · simp [hc]
  · intro hg hc
    unfold get_clean_book_info
    simp [hg, hc]

/-- Witness for C6 at the concrete input `"Plain Title"` (no marker,
no colon): the parser succeeds with empty subtitle and series fields. -/
theorem parse_total_witness :
    (get_clean_book_info "Plain Title").isSome = true ∧
    get_clean_book_info "Plain Title" =
      some ⟨⟨trimChars (removePunctChars "Plain Title".data)⟩, "", "", ""⟩ :=
  ⟨(parse_total "Plain Title").1,
   (parse_total "Plain Title").2 (by decide) (by decide)⟩

/-! ## C3: subtitle extraction -/

/-- C3 (amended): for a title `a ++ ":" ++ b` (no colon in `a`, no
series marker so that the series step leaves the title alone), the
subtitle is the trimmed text between the first and second colons (the
whole trimmed tail when there is exactly one colon), and the returned
title is the input with every left-to-right non-overlapping occurrence
of that subtitle substring deleted, then punctuation-stripped and
trimmed. -/
theorem c3_subtitle_between_colons (a b : List Char)
    (ha : ':' ∉ a)
    (hg : ¬('(' ∈ a ++ ':' :: b ∧ '#' ∈ a ++ ':' :: b)) :
    get_clean_book_info ⟨a ++ ':' :: b⟩ =
      some ⟨⟨trimChars (removePunctChars
              (removeAll (trimChars (b.takeWhile (fun x => !(x == ':'))))
                (a ++ ':' :: b)))⟩,
            ⟨trimChars (b.takeWhile (fun x => !(x == ':')))⟩, "", ""⟩ := by
  unfold get_clean_book_info
  have hc : ':' ∈ a ++ ':' :: b := List.mem_append.mpr (Or.inr (List.mem_cons_self _ _))
  simp only [hg, if_false]
  simp only [hc, if_true, get_subtitle_eq a b ha]

/-- Witness for C3's amended claim at the spec's own example
`"Book: A Subtitle"`. -/
theorem c3_subtitle_witness :
    get_clean_book_info ⟨"Book".data ++ ':' :: " A Subtitle".data⟩ =
      some ⟨⟨trimChars (removePunctChars
              (removeAll (trimChars (" A Subtitle".data.takeWhile (fun x => !(x == ':'))))
                ("Book".data ++ ':' :: " A Subtitle".data)))⟩,
            ⟨trimChars (" A Subtitle".data.takeWhile (fun x => !(x == ':')))⟩, "", ""⟩ :=
  c3_subtitle_between_colons "Book".data " A Subtitle".data (by decide) (by decide)

/-- C3 (counterexample): on `"aaabab: aab"` the subtitle prescribed by
the claim — the trimmed text after the first colon — is `"aab"`, and the
code indeed returns it; but deleting its two occurrences recombines the
remaining characters into `"aab"` again, so the returned title *equals*
the subtitle: the subtitle substring is not absent from the returned
title. -/
theorem c3_counterexample :
    get_clean_book_info "aaabab: aab" = some ⟨"aab", "aab", "", ""⟩ ∧
    trimChars (" aab".data.takeWhile (fun x => !(x == ':'))) = "aab".data ∧
    (∃ u v, "aab".data = u ++ "aab".data ++ v) :=
  ⟨by decide, by decide, ⟨[], [], by simp⟩⟩

/-! ## Inversion lemmas for the regex engine -/

theorem head?_mem {α : Type} {l : List α} {a : α} (h : l.head? = some a) : a ∈ l := by
  cases l with
  | nil => simp at h
  | cons x xs =>
    simp only [List.head?_cons, Option.some.injEq] at h
    exact h ▸ List.mem_cons_self x xs

theorem mem_of_head? {l : List Char} {c : Char} (h : l.head? = some c) : c ∈ l :=
  head?_mem h

theorem mem_of_getLast? {l : List Char} {c : Char} (h : l.getLast? = some c) : c ∈ l := by
  rw [← List.head?_reverse] at h
  exact List.mem_reverse.mp (head?_mem h)

theorem fullmatch_mem {re : RE} {s : List Char} {caps : Caps}
    (h : fullmatchCaps re s = some caps) : ([], caps) ∈ run re s := by
  unfold fullmatchCaps at h
  cases hh : ((run re s).filter (fun p => p.1.isEmpty)).head? with
  | none => rw [hh] at h; simp at h
  | some x =>
    rw [hh] at h
    simp only [Option.map_some', Option.some.injEq] at h
    rcases List.mem_filter.mp (head?_mem hh) with ⟨hmem, hP⟩
    have hx1 : x.1 = [] := List.isEmpty_iff.mp hP
    have : x = ([], caps) := by
      rcases x with ⟨x1, x2⟩
      simp only at hx1 h
      rw [hx1, h]
    exact this ▸ hmem

theorem mem_run_seq {a b : RE} {s : List Char} {pr : List Char × Caps}
    (h : pr ∈ run (.seq a b) s) :
    ∃ p q, p ∈ run a s ∧ q ∈ run b p.1 ∧ pr = (q.1, p.2 ++ q.2) := by
  simp only [run, List.mem_flatMap, List.mem_map] at h
  rcases h with ⟨p, hp, q, hq, he⟩
  exact ⟨p, q, hp, hq, he.symm⟩

theorem mem_run_chr {c : Char} {s : List Char} {pr : List Char × Caps}
    (h : pr ∈ run (.chr c) s) : ∃ xs, s = c :: xs ∧ pr = (xs, []) := by
  cases s with
  | nil => simp [run] at h
  | cons x xs =>
    simp only [run] at h
    by_cases hx : x = c
    · rw [if_pos (by simp [hx])] at h
      simp only [List.mem_singleton] at h
      exact ⟨xs, by rw [hx], h⟩
    · rw [if_neg (by simp [hx])] at h
      simp at h

theorem mem_run_cls {k : CC} {s : List Char} {pr : List Char × Caps}
    (h : pr ∈ run (.cls k) s) :
    ∃ x xs, s = x :: xs ∧ k.test x = true ∧ pr = (xs, []) := by
  cases s with
  | nil => simp [run] at h
  | cons x xs =>
    simp only [run] at h
    by_cases hx : k.test x
    · rw [if_pos hx] at h
      simp only [List.mem_singleton] at h
      exact ⟨x, xs, rfl, hx, h⟩
    · rw [if_neg hx] at h
      simp at h

theorem mem_run_optChr {c : Char} {s : List Char} {pr : List Char × Caps}
    (h : pr ∈ run (.optChr c) s) :
    pr = (s, []) ∨ ∃ xs, s = c :: xs ∧ pr = (xs, []) := by
  cases s with
  | nil =>
    simp only [run] at h
    left
    simpa using h
  | cons x xs =>
    simp only [run] at h
    rcases List.mem_append.mp h with h1 | h1
    · right
      by_cases hx : x = c
      · rw [if_pos (by simp [hx])] at h1
        simp only [List.mem_singleton] at h1
        exact ⟨xs, by rw [hx], h1⟩
      · rw [if_neg (by simp [hx])] at h1
        simp at h1
    · left; simpa using h1

theorem mem_run_group {i : Nat} {a : RE} {s : List Char} {pr : List Char × Caps}
    (h : pr ∈ run (.group i a) s) :
    ∃ p, p ∈ run a s ∧ pr = (p.1, p.2 ++ [(i, s.take (s.length - p.1.length))]) := by
  simp only [run, List.mem_map] at h
  rcases h with ⟨p, hp, he⟩
  exact ⟨p, hp, he.symm⟩

theorem mem_plusGreedyRests {k : CC} :
    ∀ {s r : List Char}, r ∈ plusGreedyRests k s →
      ∃ g, g ≠ [] ∧ (∀ c ∈ g, k.test c = true) ∧ s = g ++ r := by
  intro s
  induction s with
  | nil => intro r h; simp [plusGreedyRests] at h
  | cons x xs ih =>
    intro r h
    unfold plusGreedyRests at h
    by_cases hx : k.test x
    · rw [if_pos hx] at h
      rcases List.mem_append.mp h with h1 | h1
      · rcases ih h1 with ⟨g, hg1, hg2, hg3⟩
        refine ⟨x :: g, by simp, ?_, by rw [List.cons_append, ← hg3]⟩
        intro c hc
        rcases List.mem_cons.mp hc with h2 | h2
        · exact h2 ▸ hx
        · exact hg2 c h2
      · simp only [List.mem_singleton] at h1
        exact ⟨[x], by simp, by intro c hc; simp only [List.mem_singleton] at hc; exact hc ▸ hx,
               by rw [h1]; rfl⟩
    · rw [if_neg hx] at h
      simp at h

theorem mem_plusLazyRests {k : CC} :
    ∀ {s r : List Char}, r ∈ plusLazyRests k s →
      ∃ g, g ≠ [] ∧ (∀ c ∈ g, k.test c = true) ∧ s = g ++ r := by
  intro s
  induction s with
  | nil => intro r h; simp [plusLazyRests] at h
  | cons x xs ih =>
    intro r h
    unfold plusLazyRests at h
    by_cases hx : k.test x
    · rw [if_pos hx] at h
      rcases List.mem_cons.mp h with h1 | h1
      · exact ⟨[x], by simp, by intro c hc; simp only [List.mem_singleton] at hc; exact hc ▸ hx,
               by rw [h1]; rfl⟩
      · rcases ih h1 with ⟨g, hg1, hg2, hg3⟩
        refine ⟨x :: g, by simp, ?_, by rw [List.cons_append, ← hg3]⟩
        intro c hc
        rcases List.mem_cons.mp hc with h2 | h2
        · exact h2 ▸ hx
        · exact hg2 c h2
    · rw [if_neg hx] at h
      simp at h

theorem mem_run_plusG {k : CC} {s : List Char} {pr : List Char × Caps}
    (h : pr ∈ run (.plusG k) s) :
    ∃ g, g ≠ [] ∧ (∀ c ∈ g, k.test c = true) ∧ s = g ++ pr.1 ∧ pr.2 = [] := by
  simp only [run, List.mem_map] at h
  rcases h with ⟨r, hr, he⟩
  rcases mem_plusGreedyRests hr with ⟨g, hg1, hg2, hg3⟩
  exact ⟨g, hg1, hg2, by rw [← he]; exact hg3, by rw [← he]⟩

theorem mem_run_plusL {k : CC} {s : List Char} {pr : List Char × Caps}
    (h : pr ∈ run (.plusL k) s) :
    ∃ g, g ≠ [] ∧ (∀ c ∈ g, k.test c = true) ∧ s = g ++ pr.1 ∧ pr.2 = [] := by
  simp only [run, List.mem_map] at h
  rcases h with ⟨r, hr, he⟩
  rcases mem_plusLazyRests hr with ⟨g, hg1, hg2, hg3⟩
  exact ⟨g, hg1, hg2, by rw [← he]; exact hg3, by rw [← he]⟩

/-- `run` only ever consumes a prefix: the remainder is a suffix of the
input. -/
theorem run_consumes :
    ∀ (re : RE) (s : List Char) (pr : List Char × Caps), pr ∈ run re s →
      ∃ g, s = g ++ pr.1 := by
  intro re
  induction re with
  | chr c =>
    intro s pr h
    rcases mem_run_chr h with ⟨xs, hs, hp⟩
    exact ⟨[c], by simp [hs, hp]⟩
  | cls k =>
    intro s pr h
    rcases mem_run_cls h with ⟨x, xs, hs, _, hp⟩
    exact ⟨[x], by simp [hs, hp]⟩
  | seq a b iha ihb =>
    intro s pr h
    rcases mem_run_seq h with ⟨p, q, hp, hq, he⟩
    rcases iha s p hp with ⟨g1, hg1⟩
    rcases ihb p.1 q hq with ⟨g2, hg2⟩
    exact ⟨g1 ++ g2, by rw [he, hg1, hg2]; simp⟩
  | optChr c =>
    intro s pr h
    rcases mem_run_optChr h with h1 | ⟨xs, hs, hp⟩
    · exact ⟨[], by simp [h1]⟩
    · exact ⟨[c], by simp [hs, hp]⟩
  | plusG k =>
    intro s pr h
    rcases mem_run_plusG h with ⟨g, _, _, hg, _⟩
    exact ⟨g, hg⟩
  | plusL k =>
    intro s pr h
    rcases mem_run_plusL h with ⟨g, _, _, hg, _⟩
    exact ⟨g, hg⟩
  | group i a iha =>
    intro s pr h
    rcases mem_run_group h with ⟨p, hp, he⟩
    rcases iha s p hp with ⟨g, hg⟩
    exact ⟨g, by rw [he]; exact hg⟩

/-- The group numbers occurring in a pattern. -/
def groupIdxs : RE → List Nat
  | .seq a b => groupIdxs a ++ groupIdxs b
  | .group i a => i :: groupIdxs a
  | _ => []

/-- Every capture produced by `run` belongs to a group of the pattern. -/
theorem caps_keys :
    ∀ (re : RE) (s : List Char) (pr : List Char × Caps), pr ∈ run re s →
      ∀ q ∈ pr.2, q.1 ∈ groupIdxs re := by
  intro re
  induction re with
  | chr c =>
    intro s pr h q hq
    rcases mem_run_chr h with ⟨xs, _, hp⟩
    rw [hp] at hq; simp at hq
  | cls k =>
    intro s pr h q hq
    rcases mem_run_cls h with ⟨x, xs, _, _, hp⟩
    rw [hp] at hq; simp at hq
  | seq a b iha ihb =>
    intro s pr h q hq
    rcases mem_run_seq h with ⟨p, q', hp, hq', he⟩
    rw [he] at hq
    simp only [groupIdxs, List.mem_append]
    rcases List.mem_append.mp hq with h1 | h1
    · exact Or.inl (iha s p hp q h1)
    · exact Or.inr (ihb p.1 q' hq' q h1)
  | optChr c =>
    intro s pr h q hq
    rcases mem_run_optChr h with h1 | ⟨xs, _, h1⟩ <;>
      (rw [h1] at hq; simp at hq)
  | plusG k =>
    intro s pr h q hq
    rcases mem_run_plusG h with ⟨g, _, _, _, hc⟩
    rw [hc] at hq; simp at hq
  | plusL k =>
    intro s pr h q hq
    rcases mem_run_plusL h with ⟨g, _, _, _, hc⟩
    rw [hc] at hq; simp at hq
  | group i a iha =>
    intro s pr h q hq
    rcases mem_run_group h with ⟨p, hp, he⟩
    rw [he] at hq
    simp only [groupIdxs, List.mem_cons]
    rcases List.mem_append.mp hq with h1 | h1
    · exact Or.inr (iha s p hp q h1)
    · simp only [List.mem_singleton] at h1
      exact Or.inl (by rw [h1])

/-- A pattern without groups produces no captures. -/
theorem caps_nil_of_no_groups {re : RE} (hg : groupIdxs re = []) {s : List Char}
    {pr : List Char × Caps} (h : pr ∈ run re s) : pr.2 = [] := by
  rcases hpr2 : pr.2 with _ | ⟨q, rest⟩
  · rfl
  · have := caps_keys re s pr h q (by rw [hpr2]; exact List.mem_cons_self _ _)
    rw [hg] at this
    simp at this

theorem take_sub_of_append (g r : List Char) :
    (g ++ r).take ((g ++ r).length - r.length) = g := by
  rw [List.length_append, Nat.add_sub_cancel]
  exact List.take_left g r

/-! ## Capture shapes of the three series patterns -/

/-- A successful full match of a series pattern always produces exactly
the captures `[(2, g2), (3, g3), (1, g1)]`, in that completion order,
and the group-3 capture is text consumed by the group-3 body. -/
theorem seriesPat_caps {g3b : RE} (hg : groupIdxs g3b = []) {s : List Char}
    {caps : Caps} (h : fullmatchCaps (seriesPat g3b) s = some caps) :
    ∃ g1 g2 g3, caps = [(2, g2), (3, g3), (1, g1)] ∧
      ∃ r c, (r, c) ∈ run g3b (g3 ++ r) := by
  have hmem := fullmatch_mem h
  unfold seriesPat tailPat innerPat restPat at hmem
  rcases mem_run_seq hmem with ⟨p0, q0, hp0, hq0, he0⟩
  rcases mem_run_plusG hp0 with ⟨g0, -, -, -, hp02⟩
  injection he0 with he0a he0b
  rcases mem_run_seq hq0 with ⟨p1, q1, hp1, hq1, he1⟩
  rcases mem_run_chr hp1 with ⟨xs1, hxs1, hp1e⟩
  rcases mem_run_seq hq1 with ⟨p2, q2, hp2, hq2, he2⟩
  rcases mem_run_chr hp2 with ⟨xs2, hxs2, hp2e⟩
  rcases mem_run_seq hq2 with ⟨p3, q3, hp3, hq3, he3⟩
  rcases mem_run_group hp3 with ⟨pi, hpi, hp3e⟩
  rcases mem_run_chr hq3 with ⟨xs3, hxs3, hq3e⟩
  rcases mem_run_seq hpi with ⟨pA, qA, hpA, hqA, heA⟩
  rcases mem_run_group hpA with ⟨pl, hpl, hpAe⟩
  rcases mem_run_plusL hpl with ⟨gl, -, -, -, hpl2⟩
  rcases mem_run_seq hqA with ⟨pB, qB, hpB, hqB, heB⟩
  rcases mem_run_seq hqB with ⟨pC, qC, hpC, hqC, heC⟩
  rcases mem_run_chr hpC with ⟨xsC, hxsC, hpCe⟩
  rcases mem_run_seq hqC with ⟨pD, qD, hpD, hqD, heD⟩
  rcases mem_run_chr hpD with ⟨xsD, hxsD, hpDe⟩
  rcases mem_run_group hqD with ⟨pg, hpg, hqDe⟩
  have hp12 : p1.2 = [] := by rw [hp1e]
  have hp22 : p2.2 = [] := by rw [hp2e]
  have hq32 : q3.2 = [] := by rw [hq3e]
  have hpB2 : pB.2 = [] := by
    rcases mem_run_optChr hpB with hB | ⟨xsB, _, hB⟩ <;> rw [hB]
  have hpC2 : pC.2 = [] := by rw [hpCe]
  have hpD2 : pD.2 = [] := by rw [hpDe]
  have hpg2 : pg.2 = [] := caps_nil_of_no_groups hg hpg
  refine ⟨p2.1.take (p2.1.length - pi.1.length),
          p2.1.take (p2.1.length - pl.1.length),
          pD.1.take (pD.1.length - pg.1.length), ?_, pg.1, pg.2, ?_⟩
  · rw [he0b, hp02, (by rw [he1] : q0.2 = p1.2 ++ q1.2), hp12,
        (by rw [he2] : q1.2 = p2.2 ++ q2.2), hp22,
        (by rw [he3] : q2.2 = p3.2 ++ q3.2), hq32,
        (by rw [hp3e] : p3.2 = pi.2 ++ [(1, p2.1.take (p2.1.length - pi.1.length))]),
        (by rw [heA] : pi.2 = pA.2 ++ qA.2),
        (by rw [hpAe] : pA.2 = pl.2 ++ [(2, p2.1.take (p2.1.length - pl.1.length))]),
        hpl2,
        (by rw [heB] : qA.2 = pB.2 ++ qB.2), hpB2,
        (by rw [heC] : qB.2 = pC.2 ++ qC.2), hpC2,
        (by rw [heD] : qC.2 = pD.2 ++ qD.2), hpD2,
        (by rw [hqDe] : qD.2 = pg.2 ++ [(3, pD.1.take (pD.1.length - pg.1.length))]),
        hpg2]
    simp
  · rcases run_consumes g3b pD.1 pg hpg with ⟨gg, hgg⟩
    rw [hgg, take_sub_of_append]
    rw [hgg] at hpg
    exact hpg

/-- `l.all Char.isDigit` : every character is an ASCII digit. -/
def allDigits (l : List Char) : Bool := l.all Char.isDigit

/-- The numeric shapes the spec allows for a series number:
`N`, `N-M`, `N.M`, or `N.M-K` (digit runs). -/
def NumPattern (s : String) : Prop :=
  (s.data ≠ [] ∧ allDigits s.data = true) ∨
  (∃ a b, a ≠ [] ∧ b ≠ [] ∧ allDigits a = true ∧ allDigits b = true ∧
    (s.data = a ++ '-' :: b ∨ s.data = a ++ '.' :: b)) ∨
  (∃ a b k, a ≠ [] ∧ b ≠ [] ∧ k ≠ [] ∧ allDigits a = true ∧
    allDigits b = true ∧ allDigits k = true ∧
    s.data = a ++ '.' :: b ++ '-' :: k)

theorem body1_shape {g r : List Char} {c : Caps}
    (h : (r, c) ∈ run (.plusG .digit) (g ++ r)) :
    g ≠ [] ∧ allDigits g = true := by
  rcases mem_run_plusG h with ⟨g', hne, hall, heq, -⟩
  have hgg : g = g' := List.append_cancel_right heq
  subst hgg
  exact ⟨hne, List.all_eq_true.mpr hall⟩

theorem body2_shape {g r : List Char} {c : Caps}
    (h : (r, c) ∈ run num2 (g ++ r)) :
    ∃ a sep b, a ≠ [] ∧ b ≠ [] ∧ allDigits a = true ∧ allDigits b = true ∧
      (sep = '-' ∨ sep = '.') ∧ g = a ++ sep :: b := by
  unfold num2 at h
  rcases mem_run_seq h with ⟨p1, q1, hp1, hq1, he⟩
  injection he with her hec
  rcases mem_run_plusG hp1 with ⟨a, hane, haall, haeq, -⟩
  rcases mem_run_seq hq1 with ⟨p2, q2, hp2, hq2, he2⟩
  rcases mem_run_cls hp2 with ⟨sep, xs2, hsepeq, hseptest, hp2e⟩
  rcases mem_run_plusG hq2 with ⟨b, hbne, hball, hbeq, -⟩
  refine ⟨a, sep, b, hane, hbne,
    List.all_eq_true.mpr haall, List.all_eq_true.mpr hball, ?_, ?_⟩
  · simpa [CC.test, beq_iff_eq] using hseptest
  · have hq21 : q1.1 = q2.1 := by rw [he2]
    have hrq : q2.1 = r := by rw [← hq21, ← her]
    have hxs2 : xs2 = p2.1 := by rw [hp2e]
    have hchain : g ++ r = (a ++ sep :: b) ++ r := by
      rw [haeq, hsepeq, hxs2, hbeq, hrq]
      simp
    exact List.append_cancel_right hchain

theorem body3_shape {g r : List Char} {c : Caps}
    (h : (r, c) ∈ run num3 (g ++ r)) :
    ∃ a b k, a ≠ [] ∧ b ≠ [] ∧ k ≠ [] ∧ allDigits a = true ∧
      allDigits b = true ∧ allDigits k = true ∧ g = a ++ '.' :: b ++ '-' :: k := by
  unfold num3 at h
  rcases mem_run_seq h with ⟨p1, q1, hp1, hq1, he⟩
  injection he with her hec
  rcases mem_run_plusG hp1 with ⟨a, hane, haall, haeq, -⟩
  rcases mem_run_seq hq1 with ⟨p2, q2, hp2, hq2, he2⟩
  rcases mem_run_chr hp2 with ⟨xs2, hxs2, hp2e⟩
  rcases mem_run_seq hq2 with ⟨p3, q3, hp3, hq3, he3⟩
  rcases mem_run_plusG hp3 with ⟨b, hbne, hball, hbeq, -⟩
  rcases mem_run_seq hq3 with ⟨p4, q4, hp4, hq4, he4⟩
  rcases mem_run_chr hp4 with ⟨xs4, hxs4, hp4e⟩
  rcases mem_run_plusG hq4 with ⟨k, hkne, hkall, hkeq, -⟩
  refine ⟨a, b, k, hane, hbne, hkne,
    List.all_eq_true.mpr haall, List.all_eq_true.mpr hball,
    List.all_eq_true.mpr hkall, ?_⟩
  have e1 : q1.1 = q2.1 := by rw [he2]
  have e2 : q2.1 = q3.1 := by rw [he3]
  have e3 : q3.1 = q4.1 := by rw [he4]
  have hrq : q4.1 = r := by rw [← e3, ← e2, ← e1, ← her]
  have hx2 : xs2 = p2.1 := by rw [hp2e]
  have hx4 : xs4 = p4.1 := by rw [hp4e]
  have hchain : g ++ r = (a ++ '.' :: b ++ '-' :: k) ++ r := by
    rw [haeq, hxs2, hx2, hbeq, hxs4, hx4, hkeq, hrq]
    simp
  exact List.append_cancel_right hchain

/-! ## Whitespace and punctuation facts -/

theorem head?_dropWhile_not (p : Char → Bool) :
    ∀ (l : List Char) (c : Char), (l.dropWhile p).head? = some c → p c = false
  | [], c, h => by simp [List.dropWhile] at h
  | x :: xs, c, h => by
    rw [List.dropWhile_cons] at h
    by_cases hx : p x
    · rw [if_pos hx] at h
      exact head?_dropWhile_not p xs c h
    · rw [if_neg hx] at h
      simp only [List.head?_cons, Option.some.injEq] at h
      rw [← h]
      exact Bool.eq_false_iff.mpr hx

theorem trim_head_not_space (l : List Char) (c : Char)
    (h : (trimChars l).head? = some c) : isSpaceChar c = false := by
  unfold trimChars at h
  rw [List.head?_reverse] at h
  set z := (l.dropWhile isSpaceChar).reverse with hz
  have hw : z.dropWhile isSpaceChar ≠ [] := by
    intro he
    rw [he] at h
    simp at h
  have hzl : z.getLast? = some c := by
    conv_lhs => rw [← List.takeWhile_append_dropWhile (p := isSpaceChar) (l := z)]
    rw [List.getLast?_append_of_ne_nil _ hw]
    exact h
  rw [hz, List.getLast?_reverse] at hzl
  exact head?_dropWhile_not _ _ _ hzl

theorem trim_last_not_space (l : List Char) (c : Char)
    (h : (trimChars l).getLast? = some c) : isSpaceChar c = false := by
  unfold trimChars at h
  rw [List.getLast?_reverse] at h
  exact head?_dropWhile_not _ _ _ h

theorem mem_trimChars {l : List Char} {c : Char} (h : c ∈ trimChars l) :
    c ∈ l := by
  unfold trimChars at h
  rw [List.mem_reverse] at h
  have h2 := (List.dropWhile_sublist (l := (l.dropWhile isSpaceChar).reverse)
    (p := isSpaceChar)).subset h
  rw [List.mem_reverse] at h2
  exact (List.dropWhile_sublist (l := l) (p := isSpaceChar)).subset h2

theorem mem_removePunctChars {l : List Char} {c : Char}
    (h : c ∈ removePunctChars l) : punctClass c = false := by
  unfold removePunctChars at h
  have h2 := (List.mem_filter.mp h).2
  simpa using h2

/-- The three-part invariant of a clean title: no leading whitespace, no
trailing whitespace, and no punctuation other than hyphens. -/
theorem titleInvariant_parts (X : List Char) :
    (∀ c, (trimChars (removePunctChars X)).head? = some c → isSpaceChar c = false) ∧
    (∀ c, (trimChars (removePunctChars X)).getLast? = some c → isSpaceChar c = false) ∧
    (∀ c ∈ trimChars (removePunctChars X), c ∈ punctuationChars → c = '-') := by
  refine ⟨fun c hc => trim_head_not_space _ c hc,
          fun c hc => trim_last_not_space _ c hc, fun c hc hpc => ?_⟩
  have h1 : punctClass c = false := mem_removePunctChars (mem_trimChars hc)
  unfold punctClass at h1
  by_contra hne
  have : (decide (c ∈ punctuationChars) && !(c == '-')) = true := by
    rw [decide_eq_true hpc]
    simp [hne]
  rw [this] at h1
  simp at h1

theorem trimChars_eq_self (l : List Char)
    (h : ∀ c ∈ l, isSpaceChar c = false) : trimChars l = l := by
  unfold trimChars
  have h1 : l.dropWhile isSpaceChar = l := by
    cases l with
    | nil => rfl
    | cons x xs =>
      rw [List.dropWhile_cons, if_neg]
      simp [h x (List.mem_cons_self x xs)]
  rw [h1]
  have h2 : l.reverse.dropWhile isSpaceChar = l.reverse := by
    cases hr : l.reverse with
    | nil => rfl
    | cons x xs =>
      rw [List.dropWhile_cons, if_neg]
      have hx : x ∈ l := by
        rw [← List.mem_reverse, hr]
        exact List.mem_cons_self _ _
      simp [h x hx]
  rw [h2, List.reverse_reverse]

theorem digit_bne {c d : Char} (h : c.isDigit = true) (hd : d.isDigit = false) :
    (c == d) = false := by
  cases hc : c == d
  · rfl
  · rw [beq_iff_eq.mp hc] at h
    rw [h] at hd
    simp at hd

theorem not_space_of_digit {c : Char} (h : c.isDigit = true) :
    isSpaceChar c = false := by
  unfold isSpaceChar
  rw [digit_bne h (by decide), digit_bne h (by decide), digit_bne h (by decide),
      digit_bne h (by decide), digit_bne h (by decide), digit_bne h (by decide)]
  rfl

theorem not_space_of_mem_digits {g : List Char} (hall : allDigits g = true)
    {c : Char} (hc : c ∈ g) : isSpaceChar c = false :=
  not_space_of_digit (List.all_eq_true.mp hall c hc)

/-! ## The series number always has a numeric shape -/

theorem firstMatch_cases (s : List Char) (caps : Caps)
    (h : firstMatch [pat1, pat2, pat3] s = some caps) :
    fullmatchCaps pat1 s = some caps ∨ fullmatchCaps pat2 s = some caps ∨
      fullmatchCaps pat3 s = some caps := by
  unfold firstMatch at h
  cases h1 : fullmatchCaps pat1 s with
  | some c1 =>
    rw [h1] at h
    simp only [Option.some.injEq] at h
    exact Or.inl (by rw [h])
  | none =>
    rw [h1] at h
    unfold firstMatch at h
    cases h2 : fullmatchCaps pat2 s with
    | some c2 =>
      rw [h2] at h
      simp only [Option.some.injEq] at h
      exact Or.inr (Or.inl (by rw [h]))
    | none =>
      rw [h2] at h
      unfold firstMatch at h
      cases h3 : fullmatchCaps pat3 s with
      | some c3 =>
        rw [h3] at h
        simp only [Option.some.injEq] at h
        exact Or.inr (Or.inr (by rw [h]))
      | none =>
        rw [h3] at h
        simp [firstMatch] at h

theorem capOf_canonical (g1 g2 g3 : List Char) :
    capOf [(2, g2), (3, g3), (1, g1)] 3 = g3 := by
  simp [capOf, List.find?]

/-- Whatever `get_series_info` extracts as the series number is either
empty (no pattern matched) or has one of the numeric shapes `N`, `N-M`,
`N.M`, `N.M-K`. -/
theorem series_num_empty_or_pattern (s : List Char) :
    (get_series_info s).2.2 = [] ∨ NumPattern ⟨(get_series_info s).2.2⟩ := by
  unfold get_series_info
  cases hm : firstMatch [pat1, pat2, pat3] s with
  | none => left; rfl
  | some caps =>
    right
    rcases firstMatch_cases s caps hm with h1 | h2 | h3
    · rcases seriesPat_caps (by rfl) h1 with ⟨g1, g2, g3, hcaps, r, c, hrun⟩
      rcases body1_shape hrun with ⟨hne, hdig⟩
      have htrim : trimChars g3 = g3 :=
        trimChars_eq_self g3 (fun c hc => not_space_of_mem_digits hdig hc)
      simp only [hcaps, capOf_canonical, htrim]
      exact Or.inl ⟨hne, hdig⟩
    · rcases seriesPat_caps (by rfl) h2 with ⟨g1, g2, g3, hcaps, r, c, hrun⟩
      rcases body2_shape hrun with ⟨a, sep, b, hane, hbne, haall, hball, hsep, hg⟩
      have htrim : trimChars g3 = g3 := by
        apply trimChars_eq_self
        intro c hc
        rw [hg] at hc
        rcases List.mem_append.mp hc with hca | hcb
        · exact not_space_of_mem_digits haall hca
        · rcases List.mem_cons.mp hcb with hcs | hcb2
          · rcases hsep with h | h <;> (rw [hcs, h]; decide)
          · exact not_space_of_mem_digits hball hcb2
      simp only [hcaps, capOf_canonical, htrim]
      right; left
      refine ⟨a, b, hane, hbne, haall, hball, ?_⟩
      rcases hsep with h | h
      · left; rw [hg, h]
      · right; rw [hg, h]
    · rcases seriesPat_caps (by rfl) h3 with ⟨g1, g2, g3, hcaps, r, c, hrun⟩
      rcases body3_shape hrun with ⟨a, b, k, hane, hbne, hkne, haall, hball, hkall, hg⟩
      have htrim : trimChars g3 = g3 := by
        apply trimChars_eq_self
        intro c hc
        rw [hg] at hc
        rcases List.mem_append.mp hc with hab | hk2
        · rcases List.mem_append.mp hab with hca | hcb
          · exact not_space_of_mem_digits haall hca
          · rcases List.mem_cons.mp hcb with hcs | hcb2
            · rw [hcs]; decide
            · exact not_space_of_mem_digits hball hcb2
        · rcases List.mem_cons.mp hk2 with hcs2 | hck
          · rw [hcs2]; decide
          · exact not_space_of_mem_digits hkall hck
      simp only [hcaps, capOf_canonical, htrim]
      right; right
      exact ⟨a, b, k, hane, hbne, hkne, haall, hball, hkall, hg⟩

/-! ## C8: the ParsedTitle invariant -/

/-- C8: on every input, the returned clean title has no leading or
trailing whitespace and no punctuation other than hyphens, and the
series number is empty or matches one of the numeric shapes `N`, `N-M`,
`N.M`, `N.M-K`. -/
theorem c8_parsed_title_invariant (t : String) (pt : ParsedTitle)
    (h : get_clean_book_info t = some pt) :
    (∀ c, pt.title.data.head? = some c → isSpaceChar c = false) ∧
    (∀ c, pt.title.data.getLast? = some c → isSpaceChar c = false) ∧
    (∀ c ∈ pt.title.data, c ∈ punctuationChars → c = '-') ∧
    (pt.series_number = "" ∨ NumPattern pt.series_number) := by
  unfold get_clean_book_info at h
  by_cases hg : '(' ∈ t.data ∧ '#' ∈ t.data
  · simp only [hg, and_self, if_true] at h
    by_cases hc : ':' ∈ removeAll (get_series_info t.data).1 t.data
    · simp only [hc, if_true] at h
      rcases get_subtitle_isSome _ hc with ⟨sub, hsub⟩
      rw [hsub] at h
      cases Option.some.inj h
      refine ⟨(titleInvariant_parts _).1, (titleInvariant_parts _).2.1,
              (titleInvariant_parts _).2.2, ?_⟩
      rcases series_num_empty_or_pattern t.data with he | hp
      · left
        show (⟨(get_series_info t.data).2.2⟩ : String) = ""
        rw [he]
      · right
        exact hp
    · simp only [hc, if_false] at h
      cases Option.some.inj h
      refine ⟨(titleInvariant_parts _).1, (titleInvariant_parts _).2.1,
              (titleInvariant_parts _).2.2, ?_⟩
      rcases series_num_empty_or_pattern t.data with he | hp
      · left
        show (⟨(get_series_info t.data).2.2⟩ : String) = ""
        rw [he]
      · right
        exact hp
  · simp only [hg, if_false] at h
    by_cases hc : ':' ∈ t.data
    · simp only [hc, if_true] at h
      rcases get_subtitle_isSome _ hc with ⟨sub, hsub⟩
      rw [hsub] at h
      cases Option.some.inj h
      exact ⟨(titleInvariant_parts _).1, (titleInvariant_parts _).2.1,
             (titleInvariant_parts _).2.2, Or.inl rfl⟩
    · simp only [hc, if_false] at h
      cases Option.some.inj h
      exact ⟨(titleInvariant_parts _).1, (titleInvariant_parts _).2.1,
             (titleInvariant_parts _).2.2, Or.inl rfl⟩

/-- Witness for C8 at `"Foundation (Foundation, #1)"`: the clean title
`"Foundation"` satisfies the invariant and the series number `"1"`
matches a numeric shape. -/
theorem c8_witness :
    (∀ c, ("Foundation" : String).data.head? = some c → isSpaceChar c = false) ∧
    (∀ c, ("Foundation" : String).data.getLast? = some c → isSpaceChar c = false) ∧
    (∀ c ∈ ("Foundation" : String).data, c ∈ punctuationChars → c = '-') ∧
    (("1" : String) = "" ∨ NumPattern "1") :=
  c8_parsed_title_invariant "Foundation (Foundation, #1)"
    ⟨"Foundation", "", "Foundation", "1"⟩ (by decide)

/-! ## Machinery for the completeness of pattern 1

The enumeration order of `run` is analysed explicitly: `tailsDesc` is
the greedy order of a one-or-more repetition over a class every
character satisfies (longest consumption first), `tailsAsc` the lazy
order (shortest first). -/

/-- Proper suffixes, longest-consumption first (greedy order). -/
def tailsDesc : List Char → List (List Char)
  | [] => []
  | _ :: s => tailsDesc s ++ [s]

/-- Proper suffixes, shortest-consumption first (lazy order). -/
def tailsAsc : List Char → List (List Char)
  | [] => []
  | _ :: s => s :: tailsAsc s

theorem plusGreedyRests_all (k : CC) :
    ∀ s : List Char, (∀ c ∈ s, k.test c = true) →
      plusGreedyRests k s = tailsDesc s
  | [], _ => rfl
  | c :: s, h => by
    unfold plusGreedyRests tailsDesc
    rw [if_pos (h c (List.mem_cons_self _ _)),
        plusGreedyRests_all k s (fun c hc => h c (List.mem_cons_of_mem _ hc))]

theorem plusLazyRests_all (k : CC) :
    ∀ s : List Char, (∀ c ∈ s, k.test c = true) →
      plusLazyRests k s = tailsAsc s
  | [], _ => rfl
  | c :: s, h => by
    unfold plusLazyRests tailsAsc
    rw [if_pos (h c (List.mem_cons_self _ _)),
        plusLazyRests_all k s (fun c hc => h c (List.mem_cons_of_mem _ hc))]

theorem mem_tailsDesc : ∀ {s y : List Char}, y ∈ tailsDesc s →
    ∃ p c, s = p ++ c :: y
  | [], y, h => by simp [tailsDesc] at h
  | x :: s, y, h => by
    unfold tailsDesc at h
    rcases List.mem_append.mp h with h1 | h1
    · rcases mem_tailsDesc h1 with ⟨p, c, hpc⟩
      exact ⟨x :: p, c, by rw [List.cons_append, hpc]⟩
    · simp only [List.mem_singleton] at h1
      exact ⟨[], x, by simp [h1]⟩

theorem tailsDesc_append : ∀ (v b : List Char), v ≠ [] →
    ∃ L₂, tailsDesc (v ++ b) = tailsDesc b ++ (b :: L₂)
  | [], _, hv => absurd rfl hv
  | [c], b, _ => ⟨[], by simp [tailsDesc]⟩
  | c :: c' :: v', b, _ => by
    rcases tailsDesc_append (c' :: v') b (by simp) with ⟨L₂, hL⟩
    refine ⟨L₂ ++ [(c' :: v') ++ b], ?_⟩
    show tailsDesc ((c' :: v') ++ b) ++ [(c' :: v') ++ b] = _
    rw [hL]
    simp

theorem tailsAsc_append : ∀ (v b : List Char), v ≠ [] →
    ∃ L₁, tailsAsc (v ++ b) = L₁ ++ b :: tailsAsc b ∧
      ∀ y ∈ L₁, ∃ v', v' ≠ [] ∧ (∃ p, v = p ++ v') ∧ y = v' ++ b
  | [], _, hv => absurd rfl hv
  | [c], b, _ => ⟨[], by simp [tailsAsc], by simp⟩
  | c :: c' :: v', b, _ => by
    rcases tailsAsc_append (c' :: v') b (by simp) with ⟨L₁, hL, hY⟩
    refine ⟨((c' :: v') ++ b) :: L₁, ?_, ?_⟩
    · show ((c' :: v') ++ b) :: tailsAsc ((c' :: v') ++ b) = _
      rw [hL]
      simp
    · intro y hy
      rcases List.mem_cons.mp hy with rfl | hy2
      · exact ⟨c' :: v', by simp, ⟨[c], rfl⟩, rfl⟩
      · rcases hY y hy2 with ⟨v'', hne, ⟨p, hp⟩, hyeq⟩
        exact ⟨v'', hne, ⟨c :: p, by rw [List.cons_append, hp]⟩, hyeq⟩

theorem filter_flatMap_nil {α β : Type} (P : β → Bool) (f : α → List β) :
    ∀ L : List α, (∀ y ∈ L, (f y).filter P = []) →
      (L.flatMap f).filter P = []
  | [], _ => rfl
  | y :: L, h => by
    rw [List.flatMap_cons, List.filter_append, h y (List.mem_cons_self _ _),
        List.nil_append]
    exact filter_flatMap_nil P f L (fun z hz => h z (List.mem_cons_of_mem _ hz))

theorem head?_filter_flatMap_split {α β : Type} (P : β → Bool) (f : α → List β)
    (L₁ L₂ : List α) (x : α) (z : β)
    (h₁ : ∀ y ∈ L₁, (f y).filter P = [])
    (hx : ((f x).filter P).head? = some z) :
    (((L₁ ++ x :: L₂).flatMap f).filter P).head? = some z := by
  rw [List.flatMap_append, List.filter_append, filter_flatMap_nil P f L₁ h₁,
      List.nil_append, List.flatMap_cons, List.filter_append]
  cases hfx : (f x).filter P with
  | nil => rw [hfx] at hx; simp at hx
  | cons a l =>
    rw [hfx] at hx
    simp only [List.head?_cons, Option.some.injEq] at hx
    rw [List.cons_append, List.head?_cons, hx]

theorem plusGreedyRests_digits :
    ∀ (a b : List Char), a ≠ [] → (∀ c ∈ a, CC.test .digit c = true) →
      (∀ c, b.head? = some c → CC.test .digit c = false) →
      ∃ L₂, plusGreedyRests .digit (a ++ b) = b :: L₂
  | [], _, ha, _, _ => absurd rfl ha
  | [c], b, _, hall, hb => by
    refine ⟨[], ?_⟩
    rw [List.cons_append, List.nil_append]
    unfold plusGreedyRests
    rw [if_pos (hall c (List.mem_cons_self _ _))]
    cases b with
    | nil => rfl
    | cons c' b' =>
      unfold plusGreedyRests
      rw [if_neg (by rw [hb c' rfl]; simp)]
      simp
  | c :: c' :: a', b, _, hall, hb => by
    rcases plusGreedyRests_digits (c' :: a') b (by simp)
      (fun x hx => hall x (List.mem_cons_of_mem _ hx)) hb with ⟨L₂, hL⟩
    refine ⟨L₂ ++ [(c' :: a') ++ b], ?_⟩
    show plusGreedyRests .digit (c :: ((c' :: a') ++ b)) = _
    unfold plusGreedyRests
    rw [if_pos (hall c (List.mem_cons_self _ _)), hL]
    simp

/-! Small unfolding lemmas for the structure of `run` on the pattern's
sequenced literals. -/

theorem run_seq_chr_cons (c : Char) (k : RE) (s : List Char) :
    run (.seq (.chr c) k) (c :: s) = run k s := by
  show ((run (.chr c) (c :: s)).flatMap _) = _
  have h1 : run (.chr c) (c :: s) = [(s, [])] := by
    simp [run]
  rw [h1, List.flatMap_cons]
  simp

theorem run_seq_chr_ne (c x : Char) (k : RE) (s : List Char) (h : x ≠ c) :
    run (.seq (.chr c) k) (x :: s) = [] := by
  show ((run (.chr c) (x :: s)).flatMap _) = _
  have h1 : run (.chr c) (x :: s) = [] := by
    simp [run, h]
  rw [h1]
  rfl

theorem run_seq_chr_nil (c : Char) (k : RE) : run (.seq (.chr c) k) [] = [] :=
  rfl

theorem run_seq_opt_comma (k : RE) (s : List Char) :
    run (.seq (.optChr ',') k) (',' :: s) = run k s ++ run k (',' :: s) := by
  show ((run (.optChr ',') (',' :: s)).flatMap _) = _
  have h1 : run (.optChr ',') (',' :: s) = [(s, []), ((',' :: s), [])] := by
    simp [run]
  rw [h1, List.flatMap_cons, List.flatMap_cons]
  simp

theorem run_seq_opt_ne (k : RE) (x : Char) (s : List Char) (h : x ≠ ',') :
    run (.seq (.optChr ',') k) (x :: s) = run k (x :: s) := by
  show ((run (.optChr ',') (x :: s)).flatMap _) = _
  have h1 : run (.optChr ',') (x :: s) = [((x :: s), [])] := by
    simp [run, h]
  rw [h1, List.flatMap_cons]
  simp

/-- The continuation `,? #<g3>` fails on every strictly-early lazy
candidate: a remainder that still starts inside the series name. -/
theorem run_comma_tail_nil (g3b : RE) (v tl : List Char) (hv : v ≠ [])
    (hcomma : ',' ∉ v) (hhash : '#' ∉ v) :
    run (restPat g3b) (v ++ ',' :: tl) = [] := by
  unfold restPat
  cases v with
  | nil => exact absurd rfl hv
  | cons c v' =>
    have hc : c ≠ ',' := fun he => hcomma (by rw [he]; exact List.mem_cons_self _ _)
    rw [List.cons_append, run_seq_opt_ne _ c _ hc]
    by_cases hsp : c = ' '
    · subst hsp
      rw [run_seq_chr_cons]
      cases v' with
      | nil =>
        rw [List.nil_append, run_seq_chr_ne '#' ',' _ _ (by decide)]
      | cons c2 v'' =>
        have hc2 : c2 ≠ '#' := fun he => hhash (by
          rw [he]
          exact List.mem_cons_of_mem _ (List.mem_cons_self _ _))
        rw [List.cons_append, run_seq_chr_ne '#' c2 _ _ hc2]
    · rw [run_seq_chr_ne ' ' c _ _ hsp]

/-- The tail ` \(...\)` fails on every remainder that does not begin
with a space followed by an opening parenthesis. -/
theorem run_tailPat_nil (g3b : RE) (y : List Char)
    (h : ∀ v, y ≠ ' ' :: '(' :: v) :
    run (tailPat g3b) y = [] := by
  unfold tailPat
  cases y with
  | nil => rfl
  | cons a y' =>
    by_cases ha : a = ' '
    · subst ha
      rw [run_seq_chr_cons]
      cases y' with
      | nil => exact run_seq_chr_nil _ _
      | cons b y'' =>
        by_cases hb : b = '('
        · exact absurd (by rw [hb]) (h y'')
        · exact run_seq_chr_ne '(' b _ _ hb
    · exact run_seq_chr_ne ' ' a _ _ ha

/-! Definitional unfolding equations for `run`, usable as targeted
rewrite rules. -/

theorem run_seq_eq (a b : RE) (s : List Char) :
    run (.seq a b) s =
      (run a s).flatMap fun p => (run b p.1).map fun q => (q.1, p.2 ++ q.2) := rfl

theorem run_plusG_eq (k : CC) (s : List Char) :
    run (.plusG k) s = (plusGreedyRests k s).map fun r => (r, []) := rfl

theorem run_plusL_eq (k : CC) (s : List Char) :
    run (.plusL k) s = (plusLazyRests k s).map fun r => (r, []) := rfl

theorem run_group_eq (i : Nat) (a : RE) (s : List Char) :
    run (.group i a) s =
      (run a s).map fun p => (p.1, p.2 ++ [(i, s.take (s.length - p.1.length))]) := rfl

theorem run_chr_close : run (.chr ')') [')'] = [([], [])] := rfl

/-- Decompose membership in a series-marker tail. -/
theorem mem_marker_cases {c : Char} {sN ds : List Char}
    (h : c ∈ sN ++ ',' :: ' ' :: '#' :: (ds ++ [')'])) :
    c ∈ sN ∨ c = ',' ∨ c = ' ' ∨ c = '#' ∨ c ∈ ds ∨ c = ')' := by
  rcases List.mem_append.mp h with h1 | h1
  · exact Or.inl h1
  · rcases List.mem_cons.mp h1 with h2 | h2
    · exact Or.inr (Or.inl h2)
    · rcases List.mem_cons.mp h2 with h3 | h3
      · exact Or.inr (Or.inr (Or.inl h3))
      · rcases List.mem_cons.mp h3 with h4 | h4
        · exact Or.inr (Or.inr (Or.inr (Or.inl h4)))
        · rcases List.mem_append.mp h4 with h5 | h5
          · exact Or.inr (Or.inr (Or.inr (Or.inr (Or.inl h5))))
          · simp only [List.mem_singleton] at h5
            exact Or.inr (Or.inr (Or.inr (Or.inr (Or.inr h5))))

/-- Strip only if the edges are already non-space. -/
theorem trimChars_eq_self_edges (l : List Char)
    (hh : ∀ c, l.head? = some c → isSpaceChar c = false)
    (hl : ∀ c, l.getLast? = some c → isSpaceChar c = false) :
    trimChars l = l := by
  unfold trimChars
  have h1 : l.dropWhile isSpaceChar = l := by
    cases l with
    | nil => rfl
    | cons x xs =>
      rw [List.dropWhile_cons, if_neg]
      simp [hh x rfl]
  rw [h1]
  have h2 : l.reverse.dropWhile isSpaceChar = l.reverse := by
    cases hr : l.reverse with
    | nil => rfl
    | cons x xs =>
      rw [List.dropWhile_cons, if_neg]
      have hx : l.getLast? = some x := by
        rw [← List.head?_reverse, hr]
        rfl
      simp [hl x hx]
  rw [h2, List.reverse_reverse]

/-! ## Completeness of pattern 1 on well-formed single-entry markers -/

/-- Completeness of pattern 1: on a title of the shape
`<name> (<series>, #<digits>)` (hypotheses exclude the characters that
would make the marker ambiguous), `re.fullmatch` succeeds with the
first backtracking match, capturing the series name (group 2), the
digits (group 3) and the full inner text (group 1). -/
theorem pat1_complete (n sN ds : List Char)
    (hn : n ≠ []) (hsN : sN ≠ []) (hds : ds ≠ [])
    (hdig : ∀ c ∈ ds, c.isDigit = true)
    (hnl : '\n' ∉ n)
    (hsp : '(' ∉ sN) (hsh : '#' ∉ sN) (hsc : ',' ∉ sN) (hsl : '\n' ∉ sN) :
    fullmatchCaps pat1
        (n ++ (' ' :: '(' :: (sN ++ ',' :: ' ' :: '#' :: (ds ++ [')'])))) =
      some [(2, sN), (3, ds), (1, sN ++ ',' :: ' ' :: '#' :: ds)] := by
  have hdigtest : ∀ c ∈ ds, CC.test CC.digit c = true := fun c hc => hdig c hc
  have hpu : '(' ∉ sN ++ ',' :: ' ' :: '#' :: (ds ++ [')']) := by
    intro h
    rcases mem_marker_cases h with h | h | h | h | h | h
    · exact hsp h
    · exact absurd h (by decide)
    · exact absurd h (by decide)
    · exact absurd h (by decide)
    · exact absurd (hdig _ h) (by decide)
    · exact absurd h (by decide)
  have hdotu : ∀ c ∈ sN ++ ',' :: ' ' :: '#' :: (ds ++ [')']), CC.test CC.dot c = true := by
    intro c hc
    show (!(c == '\n')) = true
    have hne : c ≠ '\n' := by
      intro he
      subst he
      rcases mem_marker_cases hc with h | h | h | h | h | h
      · exact hsl h
      · exact absurd h (by decide)
      · exact absurd h (by decide)
      · exact absurd h (by decide)
      · exact absurd (hdig _ h) (by decide)
      · exact absurd h (by decide)
    simp [beq_eq_false_iff_ne.mpr hne]
  have hdotT : ∀ c ∈ n ++ (' ' :: '(' :: (sN ++ ',' :: ' ' :: '#' :: (ds ++ [')']))),
      CC.test CC.dot c = true := by
    intro c hc
    rcases List.mem_append.mp hc with h1 | h1
    · show (!(c == '\n')) = true
      simp [beq_eq_false_iff_ne.mpr (show c ≠ '\n' from fun he => hnl (by rw [← he]; exact h1))]
    · rcases List.mem_cons.mp h1 with h2 | h2
      · subst h2; decide
      · rcases List.mem_cons.mp h2 with h3 | h3
        · subst h3; decide
        · exact hdotu c h3
  unfold fullmatchCaps
  have hrun : run pat1 (n ++ (' ' :: '(' :: (sN ++ ',' :: ' ' :: '#' :: (ds ++ [')'])))) =
      (tailsDesc (n ++ (' ' :: '(' :: (sN ++ ',' :: ' ' :: '#' :: (ds ++ [')']))))).flatMap
        (fun r => run (tailPat (.plusG .digit)) r) := by
    simp only [pat1, seriesPat, run_seq_eq, run_plusG_eq]
    rw [plusGreedyRests_all CC.dot _ hdotT]
    simp only [List.flatMap_map]
    congr 1
    funext r
    simp
  rw [hrun]
  rcases tailsDesc_append n (' ' :: '(' :: (sN ++ ',' :: ' ' :: '#' :: (ds ++ [')']))) hn
    with ⟨L₂, hsplit⟩
  rw [hsplit]
  rw [head?_filter_flatMap_split _ _ _ L₂ _
    (([], [(2, sN), (3, ds), (1, sN ++ ',' :: ' ' :: '#' :: ds)]) : List Char × Caps) ?hempty ?hx]
  · rfl
  case hempty =>
    intro y hy
    rcases mem_tailsDesc hy with ⟨p, c, hpc⟩
    rw [run_tailPat_nil]
    · rfl
    · intro v hv
      subst hv
      cases p with
      | nil =>
        injection hpc with hpc1 hpc2
        injection hpc2 with hpc3 hpc4
        exact absurd hpc3.symm (by decide)
      | cons p0 p' =>
        injection hpc with hpc1 hpc2
        cases p' with
        | nil =>
          injection hpc2 with hpc3 hpc4
          apply hpu
          rw [hpc4]
          exact List.mem_cons_of_mem _ (List.mem_cons_self _ _)
        | cons p1 p'' =>
          injection hpc2 with hpc3 hpc4
          apply hpu
          rw [hpc4]
          exact List.mem_append.mpr (Or.inr (List.mem_cons_of_mem _
            (List.mem_cons_of_mem _ (List.mem_cons_self _ _))))
  case hx =>
    show ((run (tailPat (.plusG .digit)) (' ' :: '(' :: (sN ++ ',' :: ' ' :: '#' :: (ds ++ [')'])))).filter _).head? = _
    unfold tailPat
    rw [run_seq_chr_cons, run_seq_chr_cons]
    simp only [innerPat, run_seq_eq, run_group_eq, run_plusL_eq]
    rw [plusLazyRests_all CC.dot _ hdotu]
    simp only [List.flatMap_map, List.map_map, List.map_flatMap, List.flatMap_assoc,
      List.nil_append, Function.comp]
    rcases tailsAsc_append sN (',' :: ' ' :: '#' :: (ds ++ [')'])) hsN with ⟨L₁, hsplitA, hY⟩
    rw [hsplitA]
    apply head?_filter_flatMap_split
    · intro y hy
      rcases hY y hy with ⟨v', hvne, ⟨p, hp⟩, hyeq⟩
      subst hyeq
      rw [run_comma_tail_nil _ v' _ hvne
        (fun hmem => hsc (by rw [hp]; exact List.mem_append.mpr (Or.inr hmem)))
        (fun hmem => hsh (by rw [hp]; exact List.mem_append.mpr (Or.inr hmem)))]
      rfl
    · -- the first complete candidate: group 2 consumed exactly sN
      have hPG := plusGreedyRests_digits ds [')'] hds hdigtest
        (fun c hc => by
          simp only [List.head?_cons, Option.some.injEq] at hc
          rw [← hc]
          decide)
      rcases hPG with ⟨L₂', hPG⟩
      rw [show restPat (.plusG .digit) =
        .seq (.optChr ',') (.seq (.chr ' ') (.seq (.chr '#') (.group 3 (.plusG .digit)))) from rfl]
      rw [run_seq_opt_comma, run_seq_chr_cons, run_seq_chr_cons,
          run_seq_chr_ne ' ' ',' _ _ (by decide), run_group_eq, run_plusG_eq, hPG]
      simp only [List.map_map, List.append_nil, List.map_cons, Function.comp,
        List.flatMap_cons, run_chr_close]
      have hA2 : List.take ((sN ++ ',' :: ' ' :: '#' :: (ds ++ [')'])).length -
          (',' :: ' ' :: '#' :: (ds ++ [')'])).length) (sN ++ ',' :: ' ' :: '#' :: (ds ++ [')'])) = sN :=
        take_sub_of_append sN (',' :: ' ' :: '#' :: (ds ++ [')']))
      have hA3 : List.take ((ds ++ [')']).length - [')'].length) (ds ++ [')']) = ds :=
        take_sub_of_append ds [')']
      have hA1 : List.take ((sN ++ ',' :: ' ' :: '#' :: (ds ++ [')'])).length - [')'].length)
          (sN ++ ',' :: ' ' :: '#' :: (ds ++ [')'])) = sN ++ ',' :: ' ' :: '#' :: ds := by
        have h := take_sub_of_append (sN ++ ',' :: ' ' :: '#' :: ds) [')']
        simpa using h
      rw [hA2, hA3, hA1]
      simp [List.filter_cons]

/-! ## Removing the matched marker from the title -/

theorem removeAllAux_ge (pat : List Char) :
    ∀ (l : List Char) (m : Nat), l.length ≤ m → removeAllAux pat m l = []
  | [], 0, _ => rfl
  | [], Nat.succ _, _ => rfl
  | c :: xs, Nat.succ m, h => removeAllAux_ge pat xs m (by simpa using h)
  | c :: xs, 0, h => by simp at h

theorem isPrefixOf_append_self : ∀ (l r : List Char), l.isPrefixOf (l ++ r) = true
  | [], _ => by simp [List.isPrefixOf]
  | c :: l, r => by
    show (c == c && l.isPrefixOf (l ++ r)) = true
    rw [isPrefixOf_append_self l r]
    simp

theorem isPrefixOf_self (l : List Char) : l.isPrefixOf l = true := by
  have h := isPrefixOf_append_self l []
  rwa [List.append_nil] at h

/-- Deleting the series marker from `<prefix><marker>` leaves exactly
the prefix, provided the marker starts with `(` and the prefix has no
`(` (so no earlier char can begin an occurrence). -/
theorem removeAll_marker :
    ∀ (v pat : List Char), pat.head? = some '(' → '(' ∉ v →
      removeAll pat (v ++ pat) = v
  | [], pat, hh, _ => by
    rw [List.nil_append]
    unfold removeAll
    cases pat with
    | nil => rfl
    | cons p0 pt =>
      unfold removeAllAux
      rw [if_pos ⟨by simp, isPrefixOf_self (p0 :: pt)⟩]
      exact removeAllAux_ge (p0 :: pt) pt ((p0 :: pt).length - 1) (by simp)
  | c :: v', pat, hh, hv => by
    rw [List.cons_append]
    have hne : pat ≠ [] := by
      intro he
      rw [he] at hh
      simp at hh
    show removeAllAux pat 0 (c :: (v' ++ pat)) = c :: v'
    unfold removeAllAux
    rw [if_neg]
    · have ih := removeAll_marker v' pat hh (fun hm => hv (List.mem_cons_of_mem _ hm))
      unfold removeAll at ih
      rw [ih]
    · rintro ⟨-, hpre⟩
      cases pat with
      | nil => exact hne rfl
      | cons p0 pt =>
        simp only [List.head?_cons, Option.some.injEq] at hh
        have : (p0 == c) = true := by
          have h2 := hpre
          unfold List.isPrefixOf at h2
          exact (Bool.and_eq_true _ _).mp h2 |>.1
        apply hv
        rw [show c = '(' from by rw [← beq_iff_eq.mp this, hh]]
        exact List.mem_cons_self _ _

/-! ## C7: well-formed single-entry series markers -/

/-- C7: on every title of the shape `<name> (<series>, #<digits>)`
(well-formedness hypotheses keep the marker unambiguous: nonempty
parts, digits in the number, no `(` in the name, no `(`/`#`/`,`/newline
in the series name, the series name not starting with whitespace, and no
colon in the name so the subtitle step does not fire), the parser
removes the parenthetical entirely from the returned title, the series
number is exactly the captured digits, and the series name is the
punctuation-stripped, trimmed series text.  Pattern 1 is tried first
and matches, so patterns 2 and 3 are never consulted. -/
theorem c7_series_marker (n sN ds : List Char)
    (hn : n ≠ []) (hsN : sN ≠ []) (hds : ds ≠ [])
    (hdig : ∀ c ∈ ds, c.isDigit = true)
    (hnp : '(' ∉ n) (hnc : ':' ∉ n) (hnl : '\n' ∉ n)
    (hsp : '(' ∉ sN) (hsh : '#' ∉ sN) (hsc : ',' ∉ sN) (hsl : '\n' ∉ sN)
    (hshead : ∀ c, sN.head? = some c → isSpaceChar c = false) :
    get_clean_book_info ⟨n ++ (' ' :: '(' :: (sN ++ ',' :: ' ' :: '#' :: (ds ++ [')'])))⟩ =
      some ⟨⟨trimChars (removePunctChars (n ++ [' ']))⟩, "",
            ⟨trimChars (removePunctChars sN)⟩, ⟨ds⟩⟩ := by
  have htrimds : trimChars ds = ds :=
    trimChars_eq_self ds (fun c hc => not_space_of_digit (hdig c hc))
  have htrim1 : trimChars (sN ++ ',' :: ' ' :: '#' :: ds) = sN ++ ',' :: ' ' :: '#' :: ds := by
    apply trimChars_eq_self_edges
    · intro c hc
      cases sN with
      | nil => exact absurd rfl hsN
      | cons s0 sr =>
        simp only [List.cons_append, List.head?_cons, Option.some.injEq] at hc
        exact hc ▸ hshead s0 rfl
    · intro c hc
      have he : (sN ++ ',' :: ' ' :: '#' :: ds).getLast? = ds.getLast? := by
        rw [show sN ++ ',' :: ' ' :: '#' :: ds = (sN ++ [',', ' ', '#']) ++ ds from by simp]
        exact List.getLast?_append_of_ne_nil _ hds
      rw [he] at hc
      exact not_space_of_digit (hdig c (mem_of_getLast? hc))
  have hseries : get_series_info (n ++ (' ' :: '(' :: (sN ++ ',' :: ' ' :: '#' :: (ds ++ [')'])))) =
      ('(' :: ((sN ++ ',' :: ' ' :: '#' :: ds) ++ [')']),
       trimChars (removePunctChars sN), ds) := by
    unfold get_series_info firstMatch
    rw [pat1_complete n sN ds hn hsN hds hdig hnl hsp hsh hsc hsl]
    simp [capOf, List.find?, htrim1, htrimds]
  have hrem : removeAll ('(' :: ((sN ++ ',' :: ' ' :: '#' :: ds) ++ [')']))
      (n ++ (' ' :: '(' :: (sN ++ ',' :: ' ' :: '#' :: (ds ++ [')'])))) = n ++ [' '] := by
    rw [show n ++ (' ' :: '(' :: (sN ++ ',' :: ' ' :: '#' :: (ds ++ [')']))) =
      (n ++ [' ']) ++ ('(' :: ((sN ++ ',' :: ' ' :: '#' :: ds) ++ [')'])) from by simp]
    apply removeAll_marker
    · rfl
    · intro h
      rcases List.mem_append.mp h with h1 | h1
      · exact hnp h1
      · simp only [List.mem_singleton] at h1
        exact absurd h1 (by decide)
  have hguard : '(' ∈ n ++ (' ' :: '(' :: (sN ++ ',' :: ' ' :: '#' :: (ds ++ [')']))) ∧
      '#' ∈ n ++ (' ' :: '(' :: (sN ++ ',' :: ' ' :: '#' :: (ds ++ [')']))) := by
    constructor
    · exact List.mem_append.mpr (Or.inr (List.mem_cons_of_mem _ (List.mem_cons_self _ _)))
    · refine List.mem_append.mpr (Or.inr (List.mem_cons_of_mem _ (List.mem_cons_of_mem _
        (List.mem_append.mpr (Or.inr ?_)))))
      exact List.mem_cons_of_mem _ (List.mem_cons_of_mem _ (List.mem_cons_self _ _))
  have hnocolon : ':' ∉ n ++ [' '] := by
    intro h
    rcases List.mem_append.mp h with h1 | h1
    · exact hnc h1
    · simp only [List.mem_singleton] at h1
      exact absurd h1 (by decide)
  unfold get_clean_book_info
  simp only [hguard, and_self, if_true, hseries, hrem, hnocolon, if_false]

/-- Witness for C7 at the spec's example
`"Foundation (Foundation, #1)"`. -/
theorem c7_witness :
    get_clean_book_info
        ⟨"Foundation".data ++ (' ' :: '(' ::
          ("Foundation".data ++ ',' :: ' ' :: '#' :: ("1".data ++ [')'])))⟩ =
      some ⟨⟨trimChars (removePunctChars ("Foundation".data ++ [' ']))⟩, "",
            ⟨trimChars (removePunctChars "Foundation".data)⟩, ⟨"1".data⟩⟩ :=
  c7_series_marker "Foundation".data "Foundation".data "1".data
    (by decide) (by decide) (by decide) (by decide) (by decide) (by decide)
    (by decide) (by decide) (by decide) (by decide) (by decide)
    (by
      intro c hc
      rw [show "Foundation".data.head? = some 'F' from by decide] at hc
      simp only [Option.some.injEq] at hc
      rw [← hc]
      decide)

end Goodreads
